import Mathlib

/-!
Verification development for the ZipVoice manifest-cleaning scripts
(`egs/zipvoice/local_wordcab/`): a shallow embedding, in Lean, of the
text-normalization pipeline (`check_manifest2.normalize_text`), the record
filters (`check_manifest2.main`, `filter_manifest.filter_line`), the JSONL
record codec (`json.dumps` / `json.loads` as used by the scripts), the
backup/temp-file/rename file flows of `filter_manifest.main` and
`check_manifest2.main --fix`, and the TSV path rewriting of
`patch_tsv_paths.transform_path`.

Python strings are modelled as `List Char` (sequences of Unicode scalar
values); float-valued durations are modelled as `Rat` (their ordering is all
the scripts use); file contents are modelled as lists of written lines.
-/

namespace ZipVoice

/-! ### Character classes used by `normalize_text` (check_manifest2.py) -/

/-- U+00A0 NO-BREAK SPACE. -/
def nbsp : Char := Char.ofNat 0xA0

/-- The `_ZW_CHARS` tuple of check_manifest2.py: zero width space, zero width
non-joiner, zero width joiner, word joiner, Mongolian vowel separator, BOM. -/
def zwChars : List Char :=
  [Char.ofNat 0x200B, Char.ofNat 0x200C, Char.ofNat 0x200D,
   Char.ofNat 0x2060, Char.ofNat 0x180E, Char.ofNat 0xFEFF]

/-- Membership test in `_ZW_CHARS` (`ch in _ZW_CHARS`). -/
def isZW (c : Char) : Bool := zwChars.contains c

/-- The character class of `_CTRL_REGEX` in check_manifest2.py:
`[\u0000-\u0008\u000B\u000C\u000E-\u001F\u007F​-‍⁠﻿]`. -/
def ctrlMatch (c : Char) : Bool :=
  c.toNat ≤ 0x8 ∨ c.toNat = 0xB ∨ c.toNat = 0xC ∨
  (0xE ≤ c.toNat ∧ c.toNat ≤ 0x1F) ∨ c.toNat = 0x7F ∨
  (0x200B ≤ c.toNat ∧ c.toNat ≤ 0x200D) ∨ c.toNat = 0x2060 ∨ c.toNat = 0xFEFF

/-- `_drop_controls` of check_manifest2.py: delete every `_CTRL_REGEX` match,
counting deleted characters that are in `_ZW_CHARS` into the zero-width bucket
and the rest into the controls bucket.  Returns
`(remaining text, controls_removed, zero_width_removed)`. -/
def dropControls : List Char → List Char × Nat × Nat
  | [] => ([], 0, 0)
  | c :: rest =>
    let r := dropControls rest
    if ctrlMatch c then
      if isZW c then (r.1, r.2.1, r.2.2 + 1) else (r.1, r.2.1 + 1, r.2.2)
    else (c :: r.1, r.2.1, r.2.2)

/-- The double-quote keys of `_PUNCT_MAP`. -/
def isDoubleQuoteKey (c : Char) : Bool :=
  c = Char.ofNat 0x201C ∨ c = Char.ofNat 0x201D ∨ c = Char.ofNat 0x201E ∨
  c = Char.ofNat 0x201F ∨ c = Char.ofNat 0xAB ∨ c = Char.ofNat 0xBB

/-- The single-quote keys of `_PUNCT_MAP`. -/
def isSingleQuoteKey (c : Char) : Bool :=
  c = Char.ofNat 0x2018 ∨ c = Char.ofNat 0x2019 ∨ c = Char.ofNat 0x201A ∨
  c = Char.ofNat 0x2039 ∨ c = Char.ofNat 0x203A

/-- The dash keys of `_PUNCT_MAP`. -/
def isDashKey (c : Char) : Bool :=
  c = Char.ofNat 0x2013 ∨ c = Char.ofNat 0x2014 ∨ c = Char.ofNat 0x2015

/-- The bullet keys of `_PUNCT_MAP`. -/
def isBulletKey (c : Char) : Bool :=
  c = Char.ofNat 0x2022 ∨ c = Char.ofNat 0xB7 ∨ c = Char.ofNat 0x2027 ∨
  c = Char.ofNat 0x25AA ∨ c = Char.ofNat 0x25E6

/-- The rare-space keys of `_PUNCT_MAP`. -/
def isSpaceKey (c : Char) : Bool :=
  c = nbsp ∨ c = Char.ofNat 0x2009 ∨ c = Char.ofNat 0x200A ∨
  c = Char.ofNat 0x2008 ∨ c = Char.ofNat 0x2007 ∨ c = Char.ofNat 0x202F ∨
  c = Char.ofNat 0x205F ∨ c = Char.ofNat 0x1680 ∨ c = Char.ofNat 0x180E ∨
  (0x2000 ≤ c.toNat ∧ c.toNat ≤ 0x2006) ∨ c = Char.ofNat 0x3000

/-- The `_PUNCT_MAP` translation table of check_manifest2.py, as a partial map
from a character to its replacement string. -/
def punctMap (c : Char) : Option (List Char) :=
  if isDoubleQuoteKey c then some ['"']
  else if isSingleQuoteKey c then some ['\'']
  else if isDashKey c then some ['-']
  else if c = Char.ofNat 0x2026 then some ['.', '.', '.']
  else if isBulletKey c then some ['*']
  else if c = Char.ofNat 0x2192 then some ['-', '>']
  else if c = Char.ofNat 0x2190 then some ['<', '-']
  else if c = Char.ofNat 0x2194 then some ['<', '-', '>']
  else if c = Char.ofNat 0x21D2 then some ['=', '>']
  else if c = Char.ofNat 0x21D0 then some ['<', '=']
  else if isSpaceKey c then some [' ']
  else none

/-- `s.translate(_PUNCT_TRANS)`: each character with a `_PUNCT_MAP` entry is
replaced by its (possibly multi-character) mapping. -/
def translatePunct (s : List Char) : List Char :=
  (s.map (fun c => (punctMap c).getD [c])).flatten

/-- Membership in `_PUNCT_MAP` (`ch in _PUNCT_MAP`). -/
def inPunctMap (c : Char) : Bool := (punctMap c).isSome

/-! ### A restricted model of Python `unicodedata.normalize("NFKC", ·)`

`unicodedata` is Python standard-library data, not repository code; embedding
the full Unicode character database is impossible here, so `nfkc` implements
the NFKC algorithm (compatibility decomposition, canonical ordering, canonical
composition) restricted to the code points actually exercised by the theorems
below: U+00A0 compatibility-decomposes to a plain space, U+0300 COMBINING
GRAVE ACCENT has combining class 230 and composes with a preceding `a` to
U+00E0; every other character used in this development is NFKC-inert.  All
table entries agree with the real Unicode character database. -/

/-- U+0300 COMBINING GRAVE ACCENT. -/
def graveAccent : Char := Char.ofNat 0x300

/-- U+00E0 LATIN SMALL LETTER A WITH GRAVE. -/
def aGrave : Char := Char.ofNat 0xE0

/-- Compatibility decomposition, restricted (see section comment). -/
def compatDecomp (c : Char) : List Char :=
  if c = nbsp then [' ']
  else if c = aGrave then ['a', graveAccent]
  else [c]

/-- Canonical combining class, restricted (see section comment). -/
def ccc (c : Char) : Nat := if c = graveAccent then 230 else 0

/-- One step of canonical ordering: bubble `c` rightwards past combining marks
of strictly larger combining class (never across a starter). -/
def insertCO (c : Char) : List Char → List Char
  | [] => [c]
  | d :: rest => if ccc c > ccc d ∧ ccc d ≠ 0 then d :: insertCO c rest else c :: d :: rest

/-- Canonical ordering of combining marks. -/
def canonOrder : List Char → List Char
  | [] => []
  | c :: rest => insertCO c (canonOrder rest)

/-- Primary composite of a pair, restricted (see section comment). -/
def composePair (a b : Char) : Option Char :=
  if a = 'a' ∧ b = graveAccent then some aGrave else none

/-- Canonical composition of adjacent pairs, carrying the current candidate
starter (sufficient for the restricted repertoire, where no non-adjacent or
blocked composition cases arise beyond adjacency itself). -/
def canonCompAux (a : Char) : List Char → List Char
  | [] => [a]
  | b :: rest =>
    match composePair a b with
    | some c => canonCompAux c rest
    | none => a :: canonCompAux b rest

/-- Canonical composition. -/
def canonComp : List Char → List Char
  | [] => []
  | a :: rest => canonCompAux a rest

/-- The restricted NFKC model. -/
def nfkc (s : List Char) : List Char := canonComp (canonOrder (s.map compatDecomp).flatten)

/-! ### Whitespace stages of `normalize_text` -/

/-- The character class `[ \t\f\v]` of `_WS_MULTI` / `_WS_LINES`. -/
def wsChar (c : Char) : Bool := c = ' ' ∨ c = '\t' ∨ c = Char.ofNat 0xC ∨ c = Char.ofNat 0xB

/-- `_WS_MULTI.sub(" ", s)`: collapse every run of `[ \t\f\v]` to one space
(a run's replacement is emitted when the run ends). -/
def wsMulti : List Char → List Char
  | [] => []
  | [c] => if wsChar c then [' '] else [c]
  | c :: c2 :: rest =>
    if wsChar c then
      (if wsChar c2 then wsMulti (c2 :: rest) else ' ' :: wsMulti (c2 :: rest))
    else c :: wsMulti (c2 :: rest)

/-- Attempt to match `[ \t\f\v]*\n[ \t\f\v]*` at the head of the input;
on success return the remainder after the (greedy) match. -/
def afterNl : List Char → Option (List Char)
  | [] => none
  | c :: rest =>
    if c = '\n' then some (rest.dropWhile wsChar)
    else if wsChar c then afterNl rest
    else none

theorem dropWhile_length_le (p : Char → Bool) (l : List Char) :
    (l.dropWhile p).length ≤ l.length := by
  induction l with
  | nil => simp [List.dropWhile]
  | cons c rest ih =>
    simp only [List.dropWhile]
    split
    · simp only [List.length_cons]; omega
    · simp

theorem afterNl_length : ∀ {l r : List Char}, afterNl l = some r → r.length < l.length := by
  intro l
  induction l with
  | nil => intro r h; simp [afterNl] at h
  | cons c rest ih =>
    intro r h
    simp only [afterNl] at h
    split at h
    · have := dropWhile_length_le wsChar rest
      cases h
      simp only [List.length_cons]
      omega
    · split at h
      · have := ih h
        simp only [List.length_cons]
        omega
      · exact absurd h (by simp)

/-- Fuel-driven worker for `_WS_LINES.sub` (the fuel, one unit per match or
copied character, exists only to make the recursion structural; `wsLines`
supplies enough of it). -/
def wsLinesF : Nat → List Char → List Char
  | 0, l => l
  | _ + 1, [] => []
  | fuel + 1, c :: rest =>
    match afterNl (c :: rest) with
    | some r => '\n' :: wsLinesF fuel r
    | none => c :: wsLinesF fuel rest

/-- `_WS_LINES.sub("\n", s)`: replace each leftmost match of
`[ \t\f\v]*\n[ \t\f\v]*` by a single newline, continuing after the match. -/
def wsLines (l : List Char) : List Char := wsLinesF l.length l

/-- Fuel-driven worker for `re.sub(r"\n{3,}", "\n\n", s)` (fuel for
structural recursion only; `collapseNL` supplies enough of it). -/
def collapseNLF : Nat → List Char → List Char
  | 0, l => l
  | _ + 1, [] => []
  | _ + 1, [c] => [c]
  | _ + 1, [c, c2] => [c, c2]
  | fuel + 1, c :: c2 :: c3 :: rest =>
    if c = '\n' ∧ c2 = '\n' ∧ c3 = '\n' then
      '\n' :: '\n' :: collapseNLF fuel (rest.dropWhile (· = '\n'))
    else c :: collapseNLF fuel (c2 :: c3 :: rest)

/-- `re.sub(r"\n{3,}", "\n\n", s)`: squeeze runs of three or more newlines
down to exactly two. -/
def collapseNL (l : List Char) : List Char := collapseNLF l.length l

/-- Python `str.isspace` for a single character (the set of code points
stripped by `str.strip()`). -/
def pyIsSpace (c : Char) : Bool :=
  (0x9 ≤ c.toNat ∧ c.toNat ≤ 0xD) ∨ (0x1C ≤ c.toNat ∧ c.toNat ≤ 0x1F) ∨
  c.toNat = 0x20 ∨ c.toNat = 0x85 ∨ c.toNat = 0xA0 ∨ c.toNat = 0x1680 ∨
  (0x2000 ≤ c.toNat ∧ c.toNat ≤ 0x200A) ∨ c.toNat = 0x2028 ∨ c.toNat = 0x2029 ∨
  c.toNat = 0x202F ∨ c.toNat = 0x205F ∨ c.toNat = 0x3000

/-- Python `s.strip()`: drop whitespace from both ends. -/
def pyStrip (s : List Char) : List Char :=
  (s.dropWhile pyIsSpace).rdropWhile pyIsSpace

/-! ### `normalize_text` -/

/-- The statistics dictionary produced by `normalize_text`. -/
structure NormStats where
  nkfc_changes : Nat
  replaced_punct : Nat
  nbspace_to_space : Nat
  controls_removed : Nat
  zero_width_removed : Nat
  whitespace_collapsed : Nat
deriving DecidableEq, Repr

/-- Number of positions where the two strings differ, `zip`-style
(`sum(1 for a, b in zip(before, s) if a != b)`). -/
def zipDiffCount (a b : List Char) : Nat :=
  ((a.zip b).filter (fun p => p.1 ≠ p.2)).length

/-- `normalize_text` of check_manifest2.py: NFKC, punctuation translation
(counting pre-translation NBSPs), control/zero-width removal, whitespace
normalization, outer strip; returns the text and the stats tallies. -/
def normalize_text (s0 : List Char) : List Char × NormStats :=
  let s1 := nfkc s0
  let nk := if s1 ≠ s0 then zipDiffCount s0 s1 + (s0.length - s1.length) + (s1.length - s0.length)
            else 0
  let s2 := translatePunct s1
  let rp := if s2 ≠ s1 then (s1.filter inPunctMap).length else 0
  let nb := (s1.filter (· = nbsp)).length
  let d := dropControls s2
  let s3 := d.1
  let s4 := collapseNL (wsLines (wsMulti s3))
  let w1 : Nat := if s4 ≠ s3 then 1 else 0
  let s5 := pyStrip s4
  let w2 : Nat := if s5 ≠ s4 then 1 else 0
  (s5, { nkfc_changes := nk, replaced_punct := rp, nbspace_to_space := nb,
         controls_removed := d.2.1, zero_width_removed := d.2.2,
         whitespace_collapsed := w1 + w2 })

/-! ### Invariants of the whitespace pipeline

The lemmas below establish, for the text produced by `normalize_text`, the
shape facts (no translatable punctuation, no control characters, isolated
plain spaces, no whitespace hugging a newline, no triple newline, already
stripped) under which every stage after NFKC is the identity.  They feed the
conditional idempotence theorem for claim C4. -/

/-- Adjacent characters are not both horizontal whitespace. -/
def noWW (a b : Char) : Prop := ¬(wsChar a = true ∧ wsChar b = true)

/-- Adjacent characters are not both horizontal whitespace, and horizontal
whitespace never sits immediately next to a newline. -/
def sepOk (a b : Char) : Prop :=
  ¬(wsChar a = true ∧ wsChar b = true) ∧ ¬(wsChar a = true ∧ b = '\n') ∧
  ¬(a = '\n' ∧ wsChar b = true)

/-- Every horizontal-whitespace character in the list is a plain space. -/
def wsAllSpace (l : List Char) : Prop := ∀ c ∈ l, wsChar c = true → c = ' '

/-- No occurrence of three consecutive newlines. -/
def NoNNN (l : List Char) : Prop := ¬ (['\n', '\n', '\n'] <:+: l)

theorem dropWhile_head_not {p : Char → Bool} :
    ∀ {l : List Char} {c : Char}, (l.dropWhile p).head? = some c → p c = false := by
  intro l
  induction l with
  | nil => intro c h; simp [List.dropWhile] at h
  | cons d rest ih =>
    intro c h
    rw [List.dropWhile_cons] at h
    split at h
    · exact ih h
    · simp only [List.head?_cons, Option.some.injEq] at h
      subst h
      simp_all

theorem wsMulti_mem : ∀ {l : List Char} {c : Char}, c ∈ wsMulti l → c ∈ l ∨ c = ' '
  | [], c, h => by simp [wsMulti] at h
  | [c0], c, h => by
    simp only [wsMulti] at h
    split at h <;> simp at h <;> simp [h]
  | c0 :: c2 :: rest, c, h => by
    simp only [wsMulti] at h
    split at h
    · split at h
      · rcases wsMulti_mem h with hm | hs
        · exact Or.inl (List.mem_cons_of_mem _ hm)
        · exact Or.inr hs
      · rcases List.mem_cons.mp h with h | h
        · exact Or.inr h
        · rcases wsMulti_mem h with hm | hs
          · exact Or.inl (List.mem_cons_of_mem _ hm)
          · exact Or.inr hs
    · rcases List.mem_cons.mp h with h | h
      · exact Or.inl (by simp [h])
      · rcases wsMulti_mem h with hm | hs
        · exact Or.inl (List.mem_cons_of_mem _ hm)
        · exact Or.inr hs

theorem wsMulti_allSpace : ∀ l : List Char, wsAllSpace (wsMulti l)
  | [] => by intro c hc; simp [wsMulti] at hc
  | [c0] => by
    intro c hc hws
    simp only [wsMulti] at hc
    split at hc
    · simpa using hc
    · simp only [List.mem_singleton] at hc
      subst hc; simp_all
  | c0 :: c2 :: rest => by
    intro c hc hws
    simp only [wsMulti] at hc
    split at hc
    · split at hc
      · exact wsMulti_allSpace (c2 :: rest) c hc hws
      · rcases List.mem_cons.mp hc with h | h
        · exact h
        · exact wsMulti_allSpace (c2 :: rest) c h hws
    · rcases List.mem_cons.mp hc with h | h
      · subst h; simp_all
      · exact wsMulti_allSpace (c2 :: rest) c h hws

/-- If the head of the input is not horizontal whitespace, `wsMulti` keeps it
as the head of the output. -/
theorem wsMulti_head : ∀ {c : Char} (rest : List Char), wsChar c = false →
    (wsMulti (c :: rest)).head? = some c
  | c, [], h => by simp [wsMulti, h]
  | c, c2 :: rest, h => by simp [wsMulti, h]

theorem wsMulti_chain : ∀ l : List Char, List.Chain' noWW (wsMulti l)
  | [] => by simp [wsMulti]
  | [c0] => by
    simp only [wsMulti]
    split <;> simp
  | c0 :: c2 :: rest => by
    simp only [wsMulti]
    split
    · split
      · exact wsMulti_chain (c2 :: rest)
      · rw [List.chain'_cons']
        refine ⟨?_, wsMulti_chain (c2 :: rest)⟩
        intro y hy
        have hne : wsChar c2 = false := by simp_all
        rw [Option.mem_def, wsMulti_head rest hne] at hy
        cases hy
        exact fun hc => by simp_all
    · rw [List.chain'_cons']
      refine ⟨?_, wsMulti_chain (c2 :: rest)⟩
      intro y hy
      intro hc
      rcases hc with ⟨hc0, hcy⟩
      by_cases h2 : wsChar c2 = true
      · -- head of `wsMulti (c2 :: rest)` is a space or ' ' marker; in all
        -- cases `y` is whitespace only if it is ' ', but then `c0` must be
        -- whitespace too, contradicting this branch.
        simp_all
      · rw [Option.mem_def, wsMulti_head rest (by simp_all)] at hy
        cases hy
        simp_all

/-! ### `wsLines` lemmas -/

theorem wsChar_nl : wsChar '\n' = false := by decide

theorem afterNl_suffix : ∀ {l r : List Char}, afterNl l = some r → r <:+ l := by
  intro l
  induction l with
  | nil => intro r h; simp [afterNl] at h
  | cons c rest ih =>
    intro r h
    simp only [afterNl] at h
    split at h
    · cases h
      exact (List.dropWhile_suffix wsChar).trans (List.suffix_cons c rest)
    · split at h
      · exact (ih h).trans (List.suffix_cons c rest)
      · exact absurd h (by simp)

/-- The remainder after a `[ \t\f\v]*\n[ \t\f\v]*` match starts with a
non-whitespace character. -/
theorem afterNl_head_not : ∀ {l r : List Char} {y : Char},
    afterNl l = some r → r.head? = some y → wsChar y = false := by
  intro l
  induction l with
  | nil => intro r y h; simp [afterNl] at h
  | cons c rest ih =>
    intro r y h hy
    simp only [afterNl] at h
    split at h
    · cases h
      exact dropWhile_head_not hy
    · split at h
      · exact ih h hy
      · exact absurd h (by simp)

theorem afterNl_cons_nl (rest : List Char) :
    afterNl ('\n' :: rest) = some (rest.dropWhile wsChar) := by
  simp [afterNl]

theorem afterNl_cons_ws {c : Char} (rest : List Char) (h : wsChar c = true) :
    afterNl (c :: rest) = afterNl rest := by
  have : c ≠ '\n' := fun hc => by subst hc; simp [wsChar_nl] at h
  simp [afterNl, this, h]

theorem afterNl_cons_other {c : Char} (rest : List Char) (h : wsChar c = false)
    (hn : c ≠ '\n') : afterNl (c :: rest) = none := by
  simp [afterNl, hn, h]

theorem wsLinesF_nil : ∀ fuel : Nat, wsLinesF fuel [] = []
  | 0 => rfl
  | _ + 1 => rfl

theorem wsLinesF_cons_some {c : Char} {rest r : List Char} (fuel : Nat)
    (h : afterNl (c :: rest) = some r) :
    wsLinesF (fuel + 1) (c :: rest) = '\n' :: wsLinesF fuel r := by
  simp [wsLinesF, h]

theorem wsLinesF_cons_none {c : Char} {rest : List Char} (fuel : Nat)
    (h : afterNl (c :: rest) = none) :
    wsLinesF (fuel + 1) (c :: rest) = c :: wsLinesF fuel rest := by
  simp [wsLinesF, h]

theorem wsLinesF_mem : ∀ (fuel : Nat) (l : List Char) (c : Char),
    c ∈ wsLinesF fuel l → c ∈ l ∨ c = '\n'
  | 0, _, _, h => Or.inl h
  | _ + 1, [], c, h => by simp [wsLinesF] at h
  | fuel + 1, c0 :: rest, c, h => by
    cases hA : afterNl (c0 :: rest) with
    | some r =>
      rw [wsLinesF_cons_some fuel hA] at h
      rcases List.mem_cons.mp h with h | h
      · exact Or.inr h
      · rcases wsLinesF_mem fuel r c h with hm | hn
        · exact Or.inl ((afterNl_suffix hA).mem hm)
        · exact Or.inr hn
    | none =>
      rw [wsLinesF_cons_none fuel hA] at h
      rcases List.mem_cons.mp h with h | h
      · exact Or.inl (by simp [h])
      · rcases wsLinesF_mem fuel rest c h with hm | hn
        · exact Or.inl (List.mem_cons_of_mem _ hm)
        · exact Or.inr hn

theorem wsLines_mem {l : List Char} {c : Char} (h : c ∈ wsLines l) :
    c ∈ l ∨ c = '\n' :=
  wsLinesF_mem l.length l c h

/-- Head characterization of `wsLinesF` under sufficient fuel. -/
theorem wsLinesF_head : ∀ {fuel : Nat} {l : List Char} {x : Char},
    l.length ≤ fuel → (wsLinesF fuel l).head? = some x →
    (x = '\n' ∧ (afterNl l).isSome = true) ∨ (afterNl l = none ∧ l.head? = some x) := by
  intro fuel l x hlen h
  match fuel, l with
  | 0, l =>
    have hnil : l = [] := List.length_eq_zero.mp (Nat.le_zero.mp hlen)
    subst hnil
    simp [wsLinesF] at h
  | fuel + 1, [] => simp [wsLinesF] at h
  | fuel + 1, c0 :: rest =>
    cases hA : afterNl (c0 :: rest) with
    | some r =>
      rw [wsLinesF_cons_some fuel hA] at h
      simp only [List.head?_cons, Option.some.injEq] at h
      exact Or.inl ⟨h.symm, by simp [hA]⟩
    | none =>
      rw [wsLinesF_cons_none fuel hA] at h
      simp only [List.head?_cons, Option.some.injEq] at h
      exact Or.inr ⟨rfl, by simp [h]⟩

theorem wsLinesF_chain : ∀ (fuel : Nat) (l : List Char), l.length ≤ fuel →
    List.Chain' noWW l → List.Chain' sepOk (wsLinesF fuel l)
  | 0, l, hlen, _ => by
    have hnil : l = [] := List.length_eq_zero.mp (Nat.le_zero.mp hlen)
    subst hnil
    simp [wsLinesF]
  | _ + 1, [], _, _ => by simp [wsLinesF]
  | fuel + 1, c0 :: rest, hlen, hc => by
    have hlenrest : rest.length ≤ fuel := by
      simp only [List.length_cons] at hlen
      omega
    cases hA : afterNl (c0 :: rest) with
    | some r =>
      have hlenr : r.length ≤ fuel := by
        have := afterNl_length hA
        simp only [List.length_cons] at this
        omega
      rw [wsLinesF_cons_some fuel hA]
      rw [List.chain'_cons']
      constructor
      · intro y hy
        rcases wsLinesF_head hlenr (Option.mem_def.mp hy) with ⟨hy1, _⟩ | ⟨_, hy2⟩
        · subst hy1
          exact ⟨by simp [wsChar_nl], by simp [wsChar_nl], by simp [wsChar_nl]⟩
        · have : wsChar y = false := afterNl_head_not hA hy2
          exact ⟨by simp [wsChar_nl], by simp [wsChar_nl], by simp [this]⟩
      · exact wsLinesF_chain fuel r hlenr (hc.suffix (afterNl_suffix hA))
    | none =>
      rw [wsLinesF_cons_none fuel hA]
      rw [List.chain'_cons']
      have hc' : List.Chain' noWW rest := hc.tail
      constructor
      · intro y hy
        rcases wsLinesF_head hlenrest (Option.mem_def.mp hy) with ⟨hy1, hy2⟩ | ⟨hyn, hy2⟩
        · -- head of the processed tail is an emitted newline, so `afterNl rest`
          -- matched; then `c0` cannot be whitespace or a newline.
          subst hy1
          have hc0ws : wsChar c0 = false := by
            by_contra hw
            rw [afterNl_cons_ws rest (by simp_all)] at hA
            rw [hA] at hy2
            simp at hy2
          have hc0nl : c0 ≠ '\n' := by
            intro hc0
            subst hc0
            rw [afterNl_cons_nl] at hA
            simp at hA
          exact ⟨by simp [hc0ws], by simp [hc0ws], by simp [wsChar_nl, hc0nl]⟩
        · -- the tail's head survives: use the input adjacency plus the failure
          -- of the regex match at `c0`.
          have hnoww : noWW c0 y := by
            rw [List.chain'_cons'] at hc
            exact hc.1 y (by simp [hy2])
          have hc0nl : c0 ≠ '\n' := by
            intro hc0
            subst hc0
            rw [afterNl_cons_nl] at hA
            simp at hA
          refine ⟨hnoww, ?_, ?_⟩
          · rintro ⟨hw, hynl⟩
            subst hynl
            rw [afterNl_cons_ws rest hw] at hA
            cases rest with
            | nil => simp at hy2
            | cons d rest2 =>
              simp only [List.head?_cons, Option.some.injEq] at hy2
              subst hy2
              rw [afterNl_cons_nl] at hA
              simp at hA
          · rintro ⟨hcnl, _⟩
            exact hc0nl hcnl
      · exact wsLinesF_chain fuel rest hlenrest hc'

theorem wsLines_chain {l : List Char} (h : List.Chain' noWW l) :
    List.Chain' sepOk (wsLines l) :=
  wsLinesF_chain l.length l le_rfl h

theorem dropWhile_eq_self_of_head {p : Char → Bool} {l : List Char}
    (h : ∀ c, l.head? = some c → p c = false) : l.dropWhile p = l := by
  cases l with
  | nil => simp
  | cons c rest =>
    rw [List.dropWhile_cons]
    simp [h c rfl]

theorem wsLinesF_fix : ∀ (fuel : Nat) (l : List Char), l.length ≤ fuel →
    List.Chain' sepOk l → wsLinesF fuel l = l
  | 0, l, hlen, _ => by
    have hnil : l = [] := List.length_eq_zero.mp (Nat.le_zero.mp hlen)
    subst hnil
    simp [wsLinesF]
  | _ + 1, [], _, _ => by simp [wsLinesF]
  | fuel + 1, c0 :: rest, hlen, hc => by
    have hlenrest : rest.length ≤ fuel := by
      simp only [List.length_cons] at hlen
      omega
    rw [List.chain'_cons'] at hc
    by_cases hnl : c0 = '\n'
    · subst hnl
      have hrest : rest.dropWhile wsChar = rest := by
        apply dropWhile_eq_self_of_head
        intro c hch
        have := hc.1 c (by simp [hch])
        by_contra hw
        exact this.2.2 ⟨rfl, by simp_all⟩
      rw [wsLinesF_cons_some fuel (by rw [afterNl_cons_nl, hrest])]
      rw [wsLinesF_fix fuel rest hlenrest hc.2]
    · by_cases hws : wsChar c0 = true
      · have hA : afterNl (c0 :: rest) = none := by
          rw [afterNl_cons_ws rest hws]
          match rest, hc with
          | [], _ => simp [afterNl]
          | d :: rest2, hc =>
            have hsep := hc.1 d (by simp)
            have hd1 : wsChar d = false := by
              by_contra hw
              exact hsep.1 ⟨hws, by simp_all⟩
            have hd2 : d ≠ '\n' := by
              intro hdn
              exact hsep.2.1 ⟨hws, hdn⟩
            exact afterNl_cons_other rest2 hd1 hd2
        rw [wsLinesF_cons_none fuel hA, wsLinesF_fix fuel rest hlenrest hc.2]
      · rw [wsLinesF_cons_none fuel (afterNl_cons_other rest (by simp_all) hnl),
          wsLinesF_fix fuel rest hlenrest hc.2]

theorem wsLines_fix {l : List Char} (h : List.Chain' sepOk l) : wsLines l = l :=
  wsLinesF_fix l.length l le_rfl h

/-! ### `collapseNL` lemmas -/

theorem collapseNLF_head : ∀ (fuel : Nat) (l : List Char), l.length ≤ fuel →
    (collapseNLF fuel l).head? = l.head?
  | 0, l, hlen => by
    have hnil : l = [] := List.length_eq_zero.mp (Nat.le_zero.mp hlen)
    subst hnil
    rfl
  | _ + 1, [], _ => by simp [collapseNLF]
  | _ + 1, [_], _ => by simp [collapseNLF]
  | _ + 1, [_, _], _ => by simp [collapseNLF]
  | _ + 1, c :: c2 :: c3 :: rest, _ => by
    simp only [collapseNLF]
    split
    · rename_i hg
      simp [hg.1]
    · simp

theorem collapseNLF_mem : ∀ (fuel : Nat) {l : List Char} {x : Char},
    x ∈ collapseNLF fuel l → x ∈ l
  | 0, _, _, h => h
  | _ + 1, [], _, h => by simpa [collapseNLF] using h
  | _ + 1, [_], _, h => by simpa [collapseNLF] using h
  | _ + 1, [_, _], _, h => by simpa [collapseNLF] using h
  | fuel + 1, c :: c2 :: c3 :: rest, x, h => by
    simp only [collapseNLF] at h
    split at h
    · rename_i hg
      rcases List.mem_cons.mp h with h | h
      · simp [h, hg.1]
      rcases List.mem_cons.mp h with h | h
      · simp [h, hg.2.1]
      · have hx : x ∈ rest := (List.dropWhile_suffix _).mem (collapseNLF_mem fuel h)
        simp [hx]
    · rcases List.mem_cons.mp h with h | h
      · simp [h]
      · have hx := collapseNLF_mem fuel h
        simp only [List.mem_cons] at hx ⊢
        tauto

theorem collapseNL_mem {l : List Char} {x : Char} (h : x ∈ collapseNL l) : x ∈ l :=
  collapseNLF_mem l.length h

/-- sepOk holds of two newlines. -/
theorem sepOk_nl_nl : sepOk '\n' '\n' := by
  refine ⟨?_, ?_, ?_⟩ <;> simp [wsChar_nl]

/-- After a run of newlines permitted by `sepOk`, the next character is not
horizontal whitespace. -/
theorem chain_nl_dropNl_head : ∀ (rest : List Char),
    List.Chain' sepOk ('\n' :: rest) →
    ∀ {y : Char}, (rest.dropWhile (· = '\n')).head? = some y → wsChar y = false := by
  intro rest
  induction rest with
  | nil => intro _ y h; simp at h
  | cons d t ih =>
    intro hc y h
    by_cases hd : d = '\n'
    · subst hd
      rw [List.dropWhile_cons] at h
      simp only [decide_True] at h
      exact ih hc.tail h
    · rw [List.dropWhile_cons] at h
      simp only [decide_eq_true_eq, hd, if_false] at h
      simp only [List.head?_cons, Option.some.injEq] at h
      subst h
      rw [List.chain'_cons'] at hc
      have := hc.1 d (by simp)
      by_contra hw
      exact this.2.2 ⟨rfl, by simp_all⟩

theorem collapseNLF_chain : ∀ (fuel : Nat) (l : List Char), l.length ≤ fuel →
    List.Chain' sepOk l → List.Chain' sepOk (collapseNLF fuel l)
  | 0, _, _, h => h
  | _ + 1, [], _, h => by simpa [collapseNLF] using h
  | _ + 1, [_], _, h => by simpa [collapseNLF] using h
  | _ + 1, [_, _], _, h => by simpa [collapseNLF] using h
  | fuel + 1, c :: c2 :: c3 :: rest, hlen, hc => by
    have hlen3 : rest.length + 2 ≤ fuel := by
      simp only [List.length_cons] at hlen
      omega
    simp only [collapseNLF]
    split
    · rename_i hg
      obtain ⟨h1, h2, h3⟩ := hg
      subst h1; subst h2; subst h3
      have hlenr : (rest.dropWhile (· = '\n')).length ≤ fuel := by
        have := dropWhile_length_le (fun c => decide (c = '\n')) rest
        omega
      rw [List.chain'_cons']
      refine ⟨fun y hy => ?_, ?_⟩
      · simp only [List.head?_cons, Option.mem_def, Option.some.injEq] at hy
        subst hy
        exact sepOk_nl_nl
      rw [List.chain'_cons']
      refine ⟨fun y hy => ?_, ?_⟩
      · rw [Option.mem_def, collapseNLF_head fuel _ hlenr] at hy
        have hy' : wsChar y = false := chain_nl_dropNl_head rest hc.tail.tail hy
        have hynl : y ≠ '\n' := by
          intro h
          subst h
          have := dropWhile_head_not (p := fun c => decide (c = '\n')) hy
          simp at this
        exact ⟨by simp [wsChar_nl], by simp [wsChar_nl, hynl], by simp [hy']⟩
      · exact collapseNLF_chain fuel _ hlenr
          (hc.tail.tail.tail.suffix (List.dropWhile_suffix _))
    · rw [List.chain'_cons']
      refine ⟨fun y hy => ?_, collapseNLF_chain fuel _ (by simpa using hlen3) hc.tail⟩
      rw [Option.mem_def, collapseNLF_head fuel _ (by simpa using hlen3)] at hy
      simp only [List.head?_cons, Option.some.injEq] at hy
      subst hy
      rw [List.chain'_cons'] at hc
      exact hc.1 c2 (by simp)

theorem collapseNL_chain {l : List Char} (h : List.Chain' sepOk l) :
    List.Chain' sepOk (collapseNL l) :=
  collapseNLF_chain l.length l le_rfl h

theorem collapseNLF_cons2 : ∀ (fuel : Nat) {c2 : Char} (rest2 : List Char),
    (c2 :: rest2).length ≤ fuel → c2 ≠ '\n' →
    collapseNLF (fuel + 1) ('\n' :: c2 :: rest2) = '\n' :: collapseNLF fuel (c2 :: rest2)
  | 0, c2, rest2, hlen, h => by simp at hlen
  | fuel + 1, c2, [], _, h => by simp [collapseNLF]
  | fuel + 1, c2, d :: t, _, h => by
    simp only [collapseNLF]
    rw [if_neg (by simp [h])]

theorem prefix_head {a : Char} {L : List Char} (h : [a] <+: L) : L.head? = some a := by
  obtain ⟨t, ht⟩ := h
  subst ht
  rfl

theorem collapseNLF_noNNN : ∀ (fuel : Nat) (l : List Char), l.length ≤ fuel →
    NoNNN (collapseNLF fuel l)
  | 0, l, hlen => by
    have hnil : l = [] := List.length_eq_zero.mp (Nat.le_zero.mp hlen)
    subst hnil
    intro h
    have := h.length_le
    simp [collapseNLF] at this
  | _ + 1, [], _ => by
    intro h
    have := h.length_le
    simp [collapseNLF] at this
  | _ + 1, [_], _ => by
    intro h
    have := h.length_le
    simp [collapseNLF] at this
  | _ + 1, [_, _], _ => by
    intro h
    have := h.length_le
    simp [collapseNLF] at this
  | fuel + 1, c :: c2 :: c3 :: rest, hlen => by
    have hlen3 : rest.length + 2 ≤ fuel := by
      simp only [List.length_cons] at hlen
      omega
    simp only [collapseNLF]
    split
    · rename_i hg
      intro h
      have hlenr : (rest.dropWhile (· = '\n')).length ≤ fuel := by
        have := dropWhile_length_le (fun c => decide (c = '\n')) rest
        omega
      rcases List.infix_cons_iff.mp h with h | h
      · rcases List.cons_prefix_cons.mp h with ⟨_, h⟩
        rcases List.cons_prefix_cons.mp h with ⟨_, h⟩
        have hh := prefix_head h
        rw [collapseNLF_head fuel _ hlenr] at hh
        have := dropWhile_head_not (p := fun c => decide (c = '\n')) hh
        simp at this
      rcases List.infix_cons_iff.mp h with h | h
      · rcases List.cons_prefix_cons.mp h with ⟨_, h⟩
        have hh : (collapseNLF fuel (rest.dropWhile (· = '\n'))).head? = some '\n' := by
          rcases h with ⟨t, ht⟩
          cases hcl : collapseNLF fuel (rest.dropWhile (· = '\n')) with
          | nil => rw [hcl] at ht; simp at ht
          | cons e t2 =>
            rw [hcl] at ht
            simp only [List.cons_append] at ht
            have : e = '\n' := by
              have := congrArg List.head? ht
              simpa using this.symm
            simp [this]
        rw [collapseNLF_head fuel _ hlenr] at hh
        have := dropWhile_head_not (p := fun c => decide (c = '\n')) hh
        simp at this
      · exact collapseNLF_noNNN fuel (rest.dropWhile (· = '\n')) hlenr h
    · rename_i hg
      intro h
      rcases List.infix_cons_iff.mp h with h | h
      · rcases List.cons_prefix_cons.mp h with ⟨hcn, h⟩
        have hc2 : (collapseNLF fuel (c2 :: c3 :: rest)).head? = some '\n' := by
          obtain ⟨t, ht⟩ := h
          rw [← ht]
          rfl
        rw [collapseNLF_head fuel _ (by simpa using hlen3)] at hc2
        simp only [List.head?_cons, Option.some.injEq] at hc2
        have hc3 : c3 ≠ '\n' := by
          intro hx
          exact hg ⟨hcn.symm, hc2, hx⟩
        obtain ⟨f2, rfl⟩ : ∃ f2, fuel = f2 + 1 := ⟨fuel - 1, by omega⟩
        rw [show c2 = '\n' from hc2] at h
        rw [collapseNLF_cons2 f2 rest (by simp only [List.length_cons]; omega) hc3] at h
        rcases List.cons_prefix_cons.mp h with ⟨_, h⟩
        have hh := prefix_head h
        rw [collapseNLF_head f2 _ (by simp only [List.length_cons]; omega)] at hh
        simp only [List.head?_cons, Option.some.injEq] at hh
        exact hc3 hh
      · exact collapseNLF_noNNN fuel (c2 :: c3 :: rest) (by simpa using hlen3) h

theorem collapseNL_noNNN (l : List Char) : NoNNN (collapseNL l) :=
  collapseNLF_noNNN l.length l le_rfl

theorem NoNNN_mono {l m : List Char} (h : NoNNN l) (hm : m <:+: l) : NoNNN m :=
  fun hin => h (hin.trans hm)

theorem collapseNLF_fix : ∀ (fuel : Nat) (l : List Char), l.length ≤ fuel →
    NoNNN l → collapseNLF fuel l = l
  | 0, l, hlen, _ => by
    have hnil : l = [] := List.length_eq_zero.mp (Nat.le_zero.mp hlen)
    subst hnil
    rfl
  | _ + 1, [], _, _ => by simp [collapseNLF]
  | _ + 1, [_], _, _ => by simp [collapseNLF]
  | _ + 1, [_, _], _, _ => by simp [collapseNLF]
  | fuel + 1, c :: c2 :: c3 :: rest, hlen, h => by
    have hlen3 : rest.length + 2 ≤ fuel := by
      simp only [List.length_cons] at hlen
      omega
    simp only [collapseNLF]
    split
    · rename_i hg
      obtain ⟨h1, h2, h3⟩ := hg
      subst h1; subst h2; subst h3
      exact absurd (List.IsPrefix.isInfix ⟨rest, rfl⟩) h
    · rw [collapseNLF_fix fuel (c2 :: c3 :: rest) (by simpa using hlen3)
        (NoNNN_mono h (List.IsSuffix.isInfix ⟨[c], rfl⟩))]

theorem collapseNL_fix {l : List Char} (h : NoNNN l) : collapseNL l = l :=
  collapseNLF_fix l.length l le_rfl h

/-! ### `pyStrip` lemmas -/

theorem pyStrip_sublist (l : List Char) : pyStrip l <:+: l :=
  (List.rdropWhile_prefix pyIsSpace _).isInfix.trans
    (List.dropWhile_suffix pyIsSpace).isInfix

theorem pyStrip_idem (l : List Char) : pyStrip (pyStrip l) = pyStrip l := by
  unfold pyStrip
  have hd : ((l.dropWhile pyIsSpace).rdropWhile pyIsSpace).dropWhile pyIsSpace
      = (l.dropWhile pyIsSpace).rdropWhile pyIsSpace := by
    apply dropWhile_eq_self_of_head
    intro c hch
    obtain ⟨t, ht⟩ := List.rdropWhile_prefix pyIsSpace (l.dropWhile pyIsSpace)
    have hx : (l.dropWhile pyIsSpace).head? = some c := by
      rw [← ht]
      cases hcl : (l.dropWhile pyIsSpace).rdropWhile pyIsSpace with
      | nil => rw [hcl] at hch; simp at hch
      | cons e t2 =>
        rw [hcl] at hch
        simp only [List.head?_cons, Option.some.injEq] at hch
        simp [hch]
    exact dropWhile_head_not hx
  rw [hd, List.rdropWhile_idempotent]

/-! ### `wsMulti` as the identity on already-collapsed text -/

theorem wsMulti_fix : ∀ l : List Char, wsAllSpace l → List.Chain' noWW l →
    wsMulti l = l
  | [], _, _ => rfl
  | [c], hs, _ => by
    simp only [wsMulti]
    split
    · rename_i hw
      rw [hs c (by simp) hw]
    · rfl
  | c :: c2 :: rest, hs, hc => by
    simp only [wsMulti]
    have htail : wsAllSpace (c2 :: rest) := fun x hx hw => hs x (by simp [hx]) hw
    split
    · rename_i hw
      have hnoww : noWW c c2 := (List.chain'_cons'.mp hc).1 c2 (by simp)
      have hw2 : wsChar c2 = false := by
        by_contra hx
        exact hnoww ⟨hw, by simp_all⟩
      rw [if_neg (by simp [hw2])]
      rw [hs c (by simp) hw]
      rw [wsMulti_fix (c2 :: rest) htail hc.tail]
    · rw [wsMulti_fix (c2 :: rest) htail hc.tail]

/-! ### Absence of translatable punctuation and control characters -/

/-- No character of the list has a `_PUNCT_MAP` entry. -/
def noPunct (l : List Char) : Prop := ∀ c ∈ l, inPunctMap c = false

/-- No character of the list matches `_CTRL_REGEX`. -/
def noCtrl (l : List Char) : Prop := ∀ c ∈ l, ctrlMatch c = false

set_option maxHeartbeats 1000000 in
/-- Characters produced as `_PUNCT_MAP` replacement text have no entry of
their own (the replacement strings are plain ASCII; every key is above
U+00AA). -/
theorem punctMap_values : ∀ {x : Char} {v : List Char}, punctMap x = some v →
    ∀ c ∈ v, inPunctMap c = false := by
  intro x v h
  unfold punctMap at h
  repeat' split at h
  all_goals first
    | (injection h with h2; subst h2; decide)
    | exact Option.noConfusion h

theorem translatePunct_noPunct (l : List Char) : noPunct (translatePunct l) := by
  intro c hc
  unfold translatePunct at hc
  rw [List.mem_flatten] at hc
  obtain ⟨v, hv, hcv⟩ := hc
  rw [List.mem_map] at hv
  obtain ⟨x, _, hx⟩ := hv
  cases hpm : punctMap x with
  | none =>
    rw [← hx, hpm] at hcv
    simp only [Option.getD_none, List.mem_singleton] at hcv
    subst hcv
    simp [inPunctMap, hpm]
  | some v' =>
    rw [← hx, hpm] at hcv
    exact punctMap_values hpm c hcv

theorem translatePunct_fix {l : List Char} (h : noPunct l) : translatePunct l = l := by
  induction l with
  | nil => rfl
  | cons c rest ih =>
    have hc : punctMap c = none := by
      have hxx := h c (by simp)
      unfold inPunctMap at hxx
      cases hpm : punctMap c with
      | none => rfl
      | some v => rw [hpm] at hxx; simp at hxx
    have hrest : noPunct rest := fun x hx => h x (by simp [hx])
    unfold translatePunct at ih ⊢
    simp only [List.map_cons, List.flatten_cons, hc, Option.getD_none]
    rw [ih hrest]
    simp

theorem dropControls_mem : ∀ {l : List Char} {c : Char}, c ∈ (dropControls l).1 → c ∈ l := by
  intro l
  induction l with
  | nil => intro c h; simp [dropControls] at h
  | cons d rest ih =>
    intro c h
    simp only [dropControls] at h
    split at h
    · split at h
      · exact List.mem_cons_of_mem _ (ih h)
      · exact List.mem_cons_of_mem _ (ih h)
    · rcases List.mem_cons.mp h with h | h
      · simp [h]
      · exact List.mem_cons_of_mem _ (ih h)

theorem dropControls_noCtrl (l : List Char) : noCtrl (dropControls l).1 := by
  induction l with
  | nil => intro c h; simp [dropControls] at h
  | cons d rest ih =>
    intro c h
    simp only [dropControls] at h
    split at h
    · split at h
      · exact ih c h
      · exact ih c h
    · rcases List.mem_cons.mp h with h | h
      · subst h; simp_all
      · exact ih c h

theorem dropControls_fix {l : List Char} (h : noCtrl l) : dropControls l = (l, 0, 0) := by
  induction l with
  | nil => rfl
  | cons c rest ih =>
    have hc : ctrlMatch c = false := h c (by simp)
    have hrest : noCtrl rest := fun x hx => h x (by simp [hx])
    simp only [dropControls, ih hrest, hc]
    simp

/-! ### The normalized text satisfies every stage fixpoint invariant -/

theorem pyStrip_mem {l : List Char} {c : Char} (h : c ∈ pyStrip l) : c ∈ l :=
  (pyStrip_sublist l).sublist.subset h

theorem inPunctMap_space : inPunctMap ' ' = false := by decide
theorem inPunctMap_nl : inPunctMap '\n' = false := by decide
theorem ctrlMatch_space : ctrlMatch ' ' = false := by decide
theorem ctrlMatch_nl : ctrlMatch '\n' = false := by decide

/-- The output text of `normalize_text`, written out stage by stage. -/
theorem normalize_text_val (s : List Char) : (normalize_text s).1 =
    pyStrip (collapseNL (wsLines (wsMulti (dropControls (translatePunct (nfkc s))).1))) :=
  rfl

theorem normTxt_mem {s : List Char} {c : Char} (h : c ∈ (normalize_text s).1) :
    c ∈ (dropControls (translatePunct (nfkc s))).1 ∨ c = ' ' ∨ c = '\n' := by
  rw [normalize_text_val] at h
  have h1 := collapseNL_mem (pyStrip_mem h)
  rcases wsLines_mem h1 with h2 | h2
  · rcases wsMulti_mem h2 with h3 | h3
    · exact Or.inl h3
    · exact Or.inr (Or.inl h3)
  · exact Or.inr (Or.inr h2)

theorem normTxt_noPunct (s : List Char) : noPunct (normalize_text s).1 := by
  intro c hc
  rcases normTxt_mem hc with h | h | h
  · exact translatePunct_noPunct _ c (dropControls_mem h)
  · subst h; exact inPunctMap_space
  · subst h; exact inPunctMap_nl

theorem normTxt_noCtrl (s : List Char) : noCtrl (normalize_text s).1 := by
  intro c hc
  rcases normTxt_mem hc with h | h | h
  · exact dropControls_noCtrl _ c h
  · subst h; exact ctrlMatch_space
  · subst h; exact ctrlMatch_nl

theorem normTxt_allSpace (s : List Char) : wsAllSpace (normalize_text s).1 := by
  intro c hc hw
  rw [normalize_text_val] at hc
  have h1 := collapseNL_mem (pyStrip_mem hc)
  rcases wsLines_mem h1 with h2 | h2
  · exact wsMulti_allSpace _ c h2 hw
  · subst h2
    rw [wsChar_nl] at hw
    exact absurd hw (by simp)

theorem normTxt_chain (s : List Char) : List.Chain' sepOk (normalize_text s).1 := by
  rw [normalize_text_val]
  exact List.Chain'.infix (collapseNL_chain (wsLines_chain (wsMulti_chain _))) (pyStrip_sublist _)

theorem normTxt_noNNN (s : List Char) : NoNNN (normalize_text s).1 := by
  rw [normalize_text_val]
  exact NoNNN_mono (collapseNL_noNNN _) (pyStrip_sublist _)

theorem normTxt_strip (s : List Char) : pyStrip (normalize_text s).1 = (normalize_text s).1 := by
  rw [normalize_text_val]
  exact pyStrip_idem _

/-! ### Claim C3: the control-removal stage -/

/-- `_drop_controls` deletes exactly the `_CTRL_REGEX` matches and tallies them
by `_ZW_CHARS` membership. -/
theorem dropControls_eq (l : List Char) :
    dropControls l = (l.filter (fun c => !ctrlMatch c),
      (l.filter (fun c => ctrlMatch c && !isZW c)).length,
      (l.filter (fun c => ctrlMatch c && isZW c)).length) := by
  induction l with
  | nil => rfl
  | cons c rest ih =>
    simp only [dropControls, ih, List.filter_cons]
    by_cases h1 : ctrlMatch c = true
    · by_cases h2 : isZW c = true
      · simp [h1, h2]
      · simp [h1, h2]
    · simp [h1]

/-- Claim C3, counterexample: the control-removal stage does not behave as the
claim states.  FORM FEED (U+000C) and VERTICAL TAB (U+000B) are stripped
although the claim says they are preserved; the C1 control U+0085 and the
Mongolian vowel separator U+180E are kept although the claim says they are
stripped. -/
theorem C3_counterexample :
    (dropControls [Char.ofNat 0xC]).1 ≠ [Char.ofNat 0xC] ∧
    (dropControls [Char.ofNat 0xB]).1 ≠ [Char.ofNat 0xB] ∧
    (dropControls [Char.ofNat 0x85]).1 ≠ [] ∧
    (dropControls [Char.ofNat 0x180E]).1 ≠ [] ∧
    dropControls [Char.ofNat 0xC] = ([], 1, 0) ∧
    dropControls [Char.ofNat 0xB] = ([], 1, 0) ∧
    dropControls [Char.ofNat 0x85] = ([Char.ofNat 0x85], 0, 0) ∧
    dropControls [Char.ofNat 0x180E] = ([Char.ofNat 0x180E], 0, 0) := by
  refine ⟨?_, ?_, ?_, ?_, ?_, ?_, ?_, ?_⟩ <;> decide

/-- Claim C3, amended: the control-removal stage strips exactly the C0 control
characters other than tab, line feed and carriage return (so form feed and
vertical tab ARE stripped, tallied as `controls_removed`), plus DEL (U+007F),
plus the zero-width characters U+200B, U+200C, U+200D, U+2060 and U+FEFF
(tallied as `zero_width_removed`); C1 controls (U+0080 to U+009F) and the
Mongolian vowel separator U+180E are not stripped by this stage. -/
theorem C3_amended :
    (∀ l : List Char, dropControls l = (l.filter (fun c => !ctrlMatch c),
      (l.filter (fun c => ctrlMatch c && !isZW c)).length,
      (l.filter (fun c => ctrlMatch c && isZW c)).length)) ∧
    (∀ c : Char, ctrlMatch c = true ↔
      ((c.toNat < 0x20 ∧ c.toNat ≠ 0x9 ∧ c.toNat ≠ 0xA ∧ c.toNat ≠ 0xD) ∨
       c.toNat = 0x7F ∨ (0x200B ≤ c.toNat ∧ c.toNat ≤ 0x200D) ∨
       c.toNat = 0x2060 ∨ c.toNat = 0xFEFF)) ∧
    dropControls ['\t', '\n', Char.ofNat 0xD] = (['\t', '\n', Char.ofNat 0xD], 0, 0) ∧
    dropControls [Char.ofNat 0x200B, Char.ofNat 0x200C, Char.ofNat 0x200D,
      Char.ofNat 0x2060, Char.ofNat 0xFEFF] = ([], 0, 5) ∧
    ctrlMatch (Char.ofNat 0x80) = false ∧ ctrlMatch (Char.ofNat 0x85) = false ∧
    ctrlMatch (Char.ofNat 0x9F) = false ∧ ctrlMatch (Char.ofNat 0x180E) = false := by
  refine ⟨dropControls_eq, ?_, by decide, by decide, by decide, by decide, by decide,
    by decide⟩
  intro c
  simp only [ctrlMatch, decide_eq_true_eq]
  omega

/-! ### Claim C9: the non-breaking-space tally -/

/-- Claim C9, counterexample: an input consisting of a single NO-BREAK SPACE
contains a non-breaking space, yet `normalize_text` reports
`nbspace_to_space = 0`, because NFKC (stage 1) already maps U+00A0 to a plain
space before the tally (taken just before stage 2) is computed.  The claim
that the counter is positive for such inputs is false. -/
theorem C9_counterexample :
    nbsp ∈ [nbsp] ∧ (normalize_text [nbsp]).2.nbspace_to_space = 0 := by
  exact ⟨by decide, by decide⟩

/-- Claim C9, amended: for every input, `nbspace_to_space` equals the number of
NO-BREAK SPACE occurrences in the text just before the symbol-substitution
stage, i.e. in the NFKC-normalized text — not in the raw input.  Since NFKC
maps U+00A0 to a plain space, NBSPs of the raw input never reach that point,
so the counter is not positive for them. -/
theorem C9_amended (s : List Char) :
    (normalize_text s).2.nbspace_to_space = ((nfkc s).filter (· = nbsp)).length :=
  rfl

/-! ### Claim C4: idempotence of `normalize_text` -/

/-- Claim C4, counterexample: `normalize_text` is not idempotent.  On the
input `a`, ZERO WIDTH JOINER, COMBINING GRAVE ACCENT, the first pass removes
the zero-width joiner, leaving `a` followed by the combining accent; the
second pass's NFKC stage then composes that pair into U+00E0, so the text of
the second pass differs from the first. -/
theorem C4_counterexample :
    (normalize_text ((normalize_text ['a', Char.ofNat 0x200D, graveAccent]).1)).1 ≠
      (normalize_text ['a', Char.ofNat 0x200D, graveAccent]).1 := by
  decide

/-- Claim C4, amended: `normalize_text` is idempotent on every input whose
normalized text is NFKC-invariant (every stage after NFKC is then the
identity on the normalized text); in general idempotence can fail only
because removing a zero-width/control character may enable new canonical
composition in the second pass's NFKC stage. -/
theorem C4_amended (s : List Char)
    (h : nfkc (normalize_text s).1 = (normalize_text s).1) :
    (normalize_text ((normalize_text s).1)).1 = (normalize_text s).1 := by
  have hNP := normTxt_noPunct s
  have hNC := normTxt_noCtrl s
  have hWS := normTxt_allSpace s
  have hchain := normTxt_chain s
  have hN3 := normTxt_noNNN s
  have hstr := normTxt_strip s
  rw [normalize_text_val ((normalize_text s).1), h, translatePunct_fix hNP,
    dropControls_fix hNC]
  have hnoww : List.Chain' noWW (normalize_text s).1 :=
    hchain.imp (fun _ _ hab => hab.1)
  rw [show ((normalize_text s).1, 0, 0).1 = (normalize_text s).1 from rfl]
  rw [wsMulti_fix _ hWS hnoww, wsLines_fix hchain, collapseNL_fix hN3, hstr]

/-- Witness for the amended claim C4 at the concrete input `hi`. -/
theorem C4_amended_witness :
    nfkc (normalize_text ['h', 'i']).1 = (normalize_text ['h', 'i']).1 ∧
    (normalize_text ((normalize_text ['h', 'i']).1)).1 = (normalize_text ['h', 'i']).1 :=
  ⟨by decide, C4_amended ['h', 'i'] (by decide)⟩

/-! ### JSON values and the line codec

The scripts parse each manifest line with `json.loads` and write kept records
with `json.dumps` (default separators `", "` and `": "`; check_manifest2.py
and filter_manifest.py pass `ensure_ascii=False`, check_manifest.py uses the
default `ensure_ascii=True`).  `JVal` models the JSON values these manifests
hold; numbers are modelled as integers (float formatting is floating-point
behaviour outside this embedding, and none of the claims hinge on it), and
objects as ordered key-value lists (Python dicts preserve insertion order).
The parser models `json.loads` on this fragment: on encoder output it agrees
with `loads`; it does not model float literals, lone-surrogate escapes, or
duplicate-key overwriting (the round-trip theorem assumes well-formed,
duplicate-free keys). -/

/-- U+007B LEFT CURLY BRACKET. -/
def lbrace : Char := Char.ofNat 0x7B

/-- U+007D RIGHT CURLY BRACKET. -/
def rbrace : Char := Char.ofNat 0x7D

/-- A JSON value as held by a manifest record. -/
inductive JVal where
  | null
  | bool (b : Bool)
  | num (n : Int)
  | str (s : List Char)
  | arr (xs : List JVal)
  | obj (ms : List (List Char × JVal))

/-- Decimal digit character. -/
def digitChar (d : Nat) : Char := Char.ofNat (0x30 + d)

/-- Decimal rendering of a natural number (Python `repr` of a nonnegative
int). -/
def natChars (m : Nat) : List Char :=
  if m = 0 then ['0'] else ((Nat.digits 10 m).map digitChar).reverse

/-- Decimal rendering of an integer (Python `repr(int)`). -/
def intChars (n : Int) : List Char :=
  if n < 0 then '-' :: natChars n.natAbs else natChars n.toNat

/-- Lowercase hexadecimal digit character. -/
def hexDigitChar (k : Nat) : Char :=
  if k < 10 then digitChar k else Char.ofNat (0x61 + (k - 10))

/-- A `\u`-style escape with four lowercase hex digits, as emitted by
`json.dumps`. -/
def escU (n : Nat) : List Char :=
  ['\\', 'u', hexDigitChar (n / 4096 % 16), hexDigitChar (n / 256 % 16),
   hexDigitChar (n / 16 % 16), hexDigitChar (n % 16)]

/-- String-character escaping of `json.dumps(..., ensure_ascii=False)`: only
the quote, the backslash and control characters below U+0020 are escaped;
everything else (including non-ASCII) is written literally. -/
def escChar (c : Char) : List Char :=
  if c = '"' then ['\\', '"']
  else if c = '\\' then ['\\', '\\']
  else if c = '\n' then ['\\', 'n']
  else if c = '\t' then ['\\', 't']
  else if c = '\r' then ['\\', 'r']
  else if c = Char.ofNat 0x8 then ['\\', 'b']
  else if c = Char.ofNat 0xC then ['\\', 'f']
  else if c.toNat < 0x20 then escU c.toNat
  else [c]

/-- String-character escaping of `json.dumps` with the default
`ensure_ascii=True` (check_manifest.py): additionally every character outside
the printable ASCII range space..tilde is written as a `\uXXXX` escape
(astral characters as a surrogate pair). -/
def escCharA (c : Char) : List Char :=
  if c = '"' then ['\\', '"']
  else if c = '\\' then ['\\', '\\']
  else if c = '\n' then ['\\', 'n']
  else if c = '\t' then ['\\', 't']
  else if c = '\r' then ['\\', 'r']
  else if c = Char.ofNat 0x8 then ['\\', 'b']
  else if c = Char.ofNat 0xC then ['\\', 'f']
  else if c.toNat < 0x20 then escU c.toNat
  else if 0x7F ≤ c.toNat then
    if c.toNat < 0x10000 then escU c.toNat
    else escU (0xD800 + (c.toNat - 0x10000) / 0x400) ++
         escU (0xDC00 + (c.toNat - 0x10000) % 0x400)
  else [c]

/-- Encoded JSON string literal under escape function `esc`. -/
def encStr (esc : Char → List Char) (s : List Char) : List Char :=
  '"' :: (s.map esc).flatten ++ ['"']

mutual
/-- `json.dumps` of a value (default separators), under escape function
`esc`. -/
def encV (esc : Char → List Char) : JVal → List Char
  | .num n => intChars n
  | .str s => encStr esc s
  | .arr xs => '[' :: encElems esc xs ++ [']']
  | .obj ms => lbrace :: encMembers esc ms ++ [rbrace]
  | .null => ['n', 'u', 'l', 'l']
  | .bool b => if b then ['t', 'r', 'u', 'e'] else ['f', 'a', 'l', 's', 'e']

/-- Array elements joined by `", "`. -/
def encElems (esc : Char → List Char) : List JVal → List Char
  | [] => []
  | [x] => encV esc x
  | x :: y :: rest => encV esc x ++ ',' :: ' ' :: encElems esc (y :: rest)

/-- Object members `"key": value` joined by `", "`. -/
def encMembers (esc : Char → List Char) : List (List Char × JVal) → List Char
  | [] => []
  | [(k, v)] => encStr esc k ++ ':' :: ' ' :: encV esc v
  | (k, v) :: m :: rest =>
    encStr esc k ++ ':' :: ' ' :: encV esc v ++ ',' :: ' ' :: encMembers esc (m :: rest)
end

/-- `json.dumps(obj, ensure_ascii=False)` (check_manifest2.py,
filter_manifest.py). -/
def dumps (v : JVal) : List Char := encV escChar v

/-- `json.dumps(obj)` with the default `ensure_ascii=True`
(check_manifest.py). -/
def dumpsAscii (v : JVal) : List Char := encV escCharA v

/-! ### The `json.loads` model -/

/-- JSON whitespace. -/
def jIsWs (c : Char) : Bool := c = ' ' ∨ c = '\t' ∨ c = '\n' ∨ c = '\r'

/-- Skip JSON whitespace. -/
def jSkipWs (l : List Char) : List Char := l.dropWhile jIsWs

/-- ASCII digit test. -/
def isDigitC (c : Char) : Bool := 0x30 ≤ c.toNat ∧ c.toNat ≤ 0x39

/-- Longest digit run at the head. -/
def takeDigits : List Char → List Char × List Char
  | [] => ([], [])
  | c :: rest =>
    if isDigitC c then
      let p := takeDigits rest
      (c :: p.1, p.2)
    else ([], c :: rest)

/-- Value of a digit character. -/
def digitVal (c : Char) : Nat := c.toNat - 0x30

/-- Value of a digit run, most significant first. -/
def digitsVal (ds : List Char) : Nat := ds.foldl (fun a c => a * 10 + digitVal c) 0

/-- Hexadecimal digit value. -/
def hexVal (c : Char) : Option Nat :=
  if '0' ≤ c ∧ c ≤ '9' then some (c.toNat - 0x30)
  else if 'a' ≤ c ∧ c ≤ 'f' then some (c.toNat - 0x61 + 10)
  else if 'A' ≤ c ∧ c ≤ 'F' then some (c.toNat - 0x41 + 10)
  else none

/-- Four hex digits. -/
def hex4 (a b c d : Char) : Option Nat :=
  match hexVal a, hexVal b, hexVal c, hexVal d with
  | some va, some vb, some vc, some vd => some (((va * 16 + vb) * 16 + vc) * 16 + vd)
  | _, _, _, _ => none

/-- Simple escapes of the JSON grammar. -/
def unescapeChar : Char → Option Char
  | 'n' => some '\n'
  | 't' => some '\t'
  | 'r' => some '\r'
  | 'b' => some (Char.ofNat 0x8)
  | 'f' => some (Char.ofNat 0xC)
  | '/' => some '/'
  | '"' => some '"'
  | '\\' => some '\\'
  | _ => none

/-- A Unicode scalar value. A properly paired surrogate escape is combined
into one astral character below, as `json.loads` does; a LONE surrogate
escape (which `json.loads` would keep as a lone-surrogate str, a value no
Lean `Char` can hold) is rejected — encoder output never contains one. -/
def isScalar (n : Nat) : Bool := n < 0xD800 ∨ (0xDFFF < n ∧ n < 0x110000)

mutual
/-- Body of a JSON string literal after the opening quote: returns the
decoded content and the remainder after the closing quote. -/
def parseStringBody : List Char → Option (List Char × List Char)
  | [] => none
  | c :: rest =>
    if c = '"' then some ([], rest)
    else if c = '\\' then parseEsc rest
    else (parseStringBody rest).map (fun p => (c :: p.1, p.2))

/-- Decode one escape sequence, then continue with the string body. A high
surrogate followed by a low-surrogate escape is combined into the encoded
astral character, as in `json.loads`. -/
def parseEsc : List Char → Option (List Char × List Char)
  | [] => none
  | e :: rest =>
    if e = 'u' then
      match rest with
      | a :: b :: c :: d :: rest2 =>
        match hex4 a b c d with
        | some n =>
          if isScalar n then
            (parseStringBody rest2).map (fun p => (Char.ofNat n :: p.1, p.2))
          else if 0xD800 ≤ n ∧ n ≤ 0xDBFF then parseLowSurr n rest2
          else none
        | none => none
      | _ => none
    else
      match unescapeChar e with
      | some ch => (parseStringBody rest).map (fun p => (ch :: p.1, p.2))
      | none => none

/-- After a high-surrogate escape `n`: require an immediately following
low-surrogate escape and combine the pair into one astral character. -/
def parseLowSurr (n : Nat) : List Char → Option (List Char × List Char)
  | '\\' :: 'u' :: a2 :: b2 :: c2 :: d2 :: rest3 =>
    match hex4 a2 b2 c2 d2 with
    | some m =>
      if 0xDC00 ≤ m ∧ m ≤ 0xDFFF then
        (parseStringBody rest3).map (fun p =>
          (Char.ofNat (0x10000 + (n - 0xD800) * 0x400 + (m - 0xDC00)) :: p.1, p.2))
      else none
    | none => none
  | _ => none
end

/-- JSON integer grammar `0 | [1-9][0-9]*` (the scripts' manifests; float
literals are outside the model). -/
def parseNat0 : List Char → Option (Nat × List Char)
  | [] => none
  | c :: rest =>
    if c = '0' then some (0, rest)
    else if isDigitC c then
      let p := takeDigits rest
      some (digitsVal (c :: p.1), p.2)
    else none

/-- Optionally signed integer. -/
def parseNum : List Char → Option (JVal × List Char)
  | [] => none
  | c :: rest =>
    if c = '-' then (parseNat0 rest).map (fun p => (.num (-(p.1 : Int)), p.2))
    else (parseNat0 (c :: rest)).map (fun p => (.num ((p.1 : Int)), p.2))

mutual
/-- One JSON value (leading whitespace allowed), fuel-driven for structural
recursion; `loads` supplies sufficient fuel. -/
def parseVal : Nat → List Char → Option (JVal × List Char)
  | 0, _ => none
  | fuel + 1, l =>
    match jSkipWs l with
    | [] => none
    | c :: r =>
      if c = 'n' then
        match r with
        | 'u' :: 'l' :: 'l' :: r2 => some (.null, r2)
        | _ => none
      else if c = 't' then
        match r with
        | 'r' :: 'u' :: 'e' :: r2 => some (.bool true, r2)
        | _ => none
      else if c = 'f' then
        match r with
        | 'a' :: 'l' :: 's' :: 'e' :: r2 => some (.bool false, r2)
        | _ => none
      else if c = '"' then (parseStringBody r).map (fun p => (.str p.1, p.2))
      else if c = '[' then
        match jSkipWs r with
        | [] => none
        | c2 :: r2 =>
          if c2 = ']' then some (.arr [], r2)
          else (parseElems fuel (c2 :: r2)).map (fun p => (.arr p.1, p.2))
      else if c = lbrace then
        match jSkipWs r with
        | [] => none
        | c2 :: r2 =>
          if c2 = rbrace then some (.obj [], r2)
          else (parseMembers fuel (c2 :: r2)).map (fun p => (.obj p.1, p.2))
      else if c = '-' ∨ isDigitC c = true then parseNum (c :: r)
      else none

/-- One or more comma-separated array elements, then `]`. -/
def parseElems : Nat → List Char → Option (List JVal × List Char)
  | 0, _ => none
  | fuel + 1, l =>
    match parseVal fuel l with
    | none => none
    | some (v, r) =>
      match jSkipWs r with
      | [] => none
      | c :: r2 =>
        if c = ',' then (parseElems fuel (jSkipWs r2)).map (fun p => (v :: p.1, p.2))
        else if c = ']' then some ([v], r2)
        else none

/-- One or more comma-separated `"key": value` members, then the closing
brace. -/
def parseMembers : Nat → List Char → Option (List (List Char × JVal) × List Char)
  | 0, _ => none
  | fuel + 1, l =>
    match l with
    | [] => none
    | c :: r =>
      if c = '"' then
        match parseStringBody r with
        | none => none
        | some (k, r1) =>
          match jSkipWs r1 with
          | ':' :: r2 =>
            match parseVal fuel (jSkipWs r2) with
            | none => none
            | some (v, r3) =>
              match jSkipWs r3 with
              | [] => none
              | c4 :: r4 =>
                if c4 = ',' then
                  (parseMembers fuel (jSkipWs r4)).map (fun p => ((k, v) :: p.1, p.2))
                else if c4 = rbrace then some ([(k, v)], r4)
                else none
          | _ => none
      else none
end

/-- `json.loads` of one line: one value, surrounding whitespace allowed,
nothing else. -/
def loads (l : List Char) : Option JVal :=
  match parseVal (l.length + 1) l with
  | some (v, r) => if jSkipWs r = [] then some v else none
  | none => none

/-- Key lookup in an object member list (`dict.get`). -/
def getKey (k : List Char) : List (List Char × JVal) → Option JVal
  | [] => none
  | (k2, v) :: rest => if k2 = k then some v else getKey k rest

mutual
/-- Well-formedness for the round-trip theorem: all object key lists are
duplicate-free (as is the case for every value produced by `json.loads`,
whose dicts have unique keys). -/
def wfV : JVal → Bool
  | .null => true
  | .bool _ => true
  | .num _ => true
  | .str _ => true
  | .arr xs => wfList xs
  | .obj ms => wfObj ms

/-- All elements well-formed. -/
def wfList : List JVal → Bool
  | [] => true
  | x :: rest => wfV x && wfList rest

/-- No duplicate keys; values well-formed. -/
def wfObj : List (List Char × JVal) → Bool
  | [] => true
  | (k, v) :: rest => (getKey k rest).isNone && wfV v && wfObj rest
end

/-! ### Decimal round trip -/

theorem digitVal_digitChar {d : Nat} (h : d < 10) : digitVal (digitChar d) = d := by
  interval_cases d <;> decide

theorem isDigitC_digitChar {d : Nat} (h : d < 10) : isDigitC (digitChar d) = true := by
  interval_cases d <;> decide

theorem digitChar_ne_zero {d : Nat} (h : d < 10) (h0 : d ≠ 0) : digitChar d ≠ '0' := by
  interval_cases d <;> simp_all <;> decide

theorem natChars_ne_nil (n : Nat) : natChars n ≠ [] := by
  unfold natChars
  split
  · simp
  · rename_i h
    have hne := (Nat.digits_ne_nil_iff_ne_zero (b := 10)).mpr h
    simp [hne]

theorem natChars_digits {n : Nat} : ∀ c ∈ natChars n, isDigitC c = true := by
  intro c hc
  unfold natChars at hc
  split at hc
  · simp only [List.mem_singleton] at hc
    subst hc
    decide
  · rw [List.mem_reverse, List.mem_map] at hc
    obtain ⟨d, hd, hdc⟩ := hc
    subst hdc
    exact isDigitC_digitChar (Nat.digits_lt_base (by norm_num) hd)

theorem natChars_head_ne_zero {n : Nat} (h : n ≠ 0) {c : Char} {t : List Char}
    (he : natChars n = c :: t) : c ≠ '0' := by
  have hne := (Nat.digits_ne_nil_iff_ne_zero (b := 10)).mpr h
  have hmapne : (Nat.digits 10 n).map digitChar ≠ [] := by simp [hne]
  have hh : (natChars n).head? = some (digitChar ((Nat.digits 10 n).getLast hne)) := by
    unfold natChars
    rw [if_neg h, List.head?_reverse, List.getLast?_eq_getLast _ hmapne,
      List.getLast_map]
  rw [he] at hh
  simp only [List.head?_cons, Option.some.injEq] at hh
  subst hh
  have hlast := Nat.getLast_digit_ne_zero 10 h
  have hlt : (Nat.digits 10 n).getLast hne < 10 :=
    Nat.digits_lt_base (by norm_num) (List.getLast_mem hne)
  exact digitChar_ne_zero hlt hlast

theorem digitsVal_natChars (n : Nat) : digitsVal (natChars n) = n := by
  unfold natChars
  split
  · rename_i h
    subst h
    decide
  · rename_i h
    unfold digitsVal
    rw [List.foldl_reverse]
    rw [List.foldr_map]
    have key : ∀ L : List Nat, (∀ d ∈ L, d < 10) →
        L.foldr (fun x y => y * 10 + digitVal (digitChar x)) 0 = Nat.ofDigits 10 L := by
      intro L
      induction L with
      | nil => intro _; simp [Nat.ofDigits_nil]
      | cons d tl ih =>
        intro hL
        rw [List.foldr_cons, Nat.ofDigits_cons, ih (fun x hx => hL x (by simp [hx])),
          digitVal_digitChar (hL d (by simp))]
        ring
    rw [key _ (fun d hd => Nat.digits_lt_base (by norm_num) hd), Nat.ofDigits_digits]

theorem takeDigits_append : ∀ (ds : List Char), (∀ c ∈ ds, isDigitC c = true) →
    ∀ {rest : List Char}, (∀ c, rest.head? = some c → isDigitC c = false) →
    takeDigits (ds ++ rest) = (ds, rest)
  | [], _, rest, hr => by
    cases rest with
    | nil => rfl
    | cons c t =>
      simp only [List.nil_append, takeDigits]
      rw [if_neg (by simp [hr c rfl])]
  | c :: ds, hds, rest, hr => by
    simp only [List.cons_append, takeDigits]
    rw [if_pos (hds c (by simp))]
    have ih := takeDigits_append ds (fun x hx => hds x (by simp [hx])) hr
    simp only [List.append_eq] at ih ⊢
    rw [ih]

/-- The character after an encoded number in encoder output. -/
def numDelim (l : List Char) : Bool :=
  match l with
  | [] => true
  | c :: _ => c = ',' ∨ c = ']' ∨ c = rbrace

theorem numDelim_not_digit {l : List Char} (h : numDelim l = true) :
    ∀ c, l.head? = some c → isDigitC c = false := by
  intro c hc
  cases l with
  | nil => simp at hc
  | cons d t =>
    simp only [List.head?_cons, Option.some.injEq] at hc
    subst hc
    simp only [numDelim, decide_eq_true_eq] at h
    rcases h with h | h | h <;> subst h <;> decide

theorem parseNat0_natChars (n : Nat) {rest : List Char} (hr : numDelim rest = true) :
    parseNat0 (natChars n ++ rest) = some (n, rest) := by
  by_cases h0 : n = 0
  · subst h0
    have : natChars 0 = ['0'] := rfl
    rw [this]
    simp [parseNat0]
  · cases he : natChars n with
    | nil => exact absurd he (natChars_ne_nil n)
    | cons c t =>
      have hdig : isDigitC c = true :=
        natChars_digits (n := n) c (by rw [he]; exact List.mem_cons_self c t)
      have hnz : c ≠ '0' := natChars_head_ne_zero h0 he
      simp only [List.cons_append, parseNat0]
      rw [if_neg hnz, if_pos hdig]
      rw [takeDigits_append t
        (fun x hx => natChars_digits (n := n) x
          (by rw [he]; exact List.mem_cons_of_mem _ hx))
        (numDelim_not_digit hr)]
      have hv : digitsVal (c :: t) = n := by
        rw [← he]
        exact digitsVal_natChars n
      simp only [hv]

theorem parseNum_intChars (n : Int) {rest : List Char} (hr : numDelim rest = true) :
    parseNum (intChars n ++ rest) = some (.num n, rest) := by
  unfold intChars
  split
  · rename_i hneg
    have hbody : parseNum ('-' :: (natChars n.natAbs ++ rest)) =
        (parseNat0 (natChars n.natAbs ++ rest)).map
          (fun p => (.num (-(p.1 : Int)), p.2)) := by
      simp [parseNum]
    rw [List.cons_append, hbody, parseNat0_natChars _ hr]
    have hv : -((n.natAbs : Nat) : Int) = n := by omega
    simp only [Option.map_some']
    rw [hv]
  · rename_i hpos
    cases he : natChars n.toNat with
    | nil => exact absurd he (natChars_ne_nil _)
    | cons c t =>
      have hdig : isDigitC c = true :=
        natChars_digits (n := n.toNat) c (by rw [he]; exact List.mem_cons_self c t)
      have hnm : c ≠ '-' := by
        intro hx
        subst hx
        simp [isDigitC] at hdig
      simp only [List.cons_append, parseNum]
      rw [if_neg hnm]
      rw [show (c :: (t ++ rest)) = natChars n.toNat ++ rest by rw [he, List.cons_append]]
      rw [parseNat0_natChars _ hr]
      have hv : ((n.toNat : Nat) : Int) = n := Int.toNat_of_nonneg (by omega)
      simp only [Option.map_some']
      rw [hv]

/-! ### String-escape round trip -/

theorem hexVal_hexDigitChar {d : Nat} (h : d < 16) : hexVal (hexDigitChar d) = some d := by
  interval_cases d <;> decide

theorem hex4_escU {n : Nat} (h : n < 0x10000) :
    hex4 (hexDigitChar (n / 4096 % 16)) (hexDigitChar (n / 256 % 16))
      (hexDigitChar (n / 16 % 16)) (hexDigitChar (n % 16)) = some n := by
  rw [hex4]
  rw [hexVal_hexDigitChar (Nat.mod_lt _ (by norm_num)),
    hexVal_hexDigitChar (Nat.mod_lt _ (by norm_num)),
    hexVal_hexDigitChar (Nat.mod_lt _ (by norm_num)),
    hexVal_hexDigitChar (Nat.mod_lt _ (by norm_num))]
  simp only [Option.some.injEq]
  omega

theorem parseStringBody_cons_plain {c : Char} (h1 : c ≠ '"') (h2 : c ≠ '\\')
    (l : List Char) :
    parseStringBody (c :: l) = (parseStringBody l).map (fun p => (c :: p.1, p.2)) := by
  simp [parseStringBody, h1, h2]

theorem parseStringBody_bslash (l : List Char) :
    parseStringBody ('\\' :: l) = parseEsc l := by
  simp [parseStringBody]

theorem parseEsc_simple {e ch : Char} (he : e ≠ 'u') (h : unescapeChar e = some ch)
    (l : List Char) :
    parseEsc (e :: l) = (parseStringBody l).map (fun p => (ch :: p.1, p.2)) := by
  unfold parseEsc
  simp [he, h]

theorem parseStringBody_enc : ∀ (s rest : List Char),
    parseStringBody ((s.map escChar).flatten ++ '"' :: rest) = some (s, rest)
  | [], rest => by simp [parseStringBody]
  | c :: s, rest => by
    have IH := parseStringBody_enc s rest
    simp only [List.map_cons, List.flatten_cons, List.append_assoc]
    by_cases h1 : c = '"'
    · subst h1
      rw [show escChar '"' = ['\\', '"'] from rfl]
      simp only [List.cons_append, List.nil_append]
      rw [parseStringBody_bslash,
        parseEsc_simple (by decide) (show unescapeChar '"' = some '"' from rfl), IH]
      rfl
    by_cases h2 : c = '\\'
    · subst h2
      rw [show escChar '\\' = ['\\', '\\'] from rfl]
      simp only [List.cons_append, List.nil_append]
      rw [parseStringBody_bslash,
        parseEsc_simple (by decide) (show unescapeChar '\\' = some '\\' from rfl), IH]
      rfl
    by_cases h3 : c = '\n'
    · subst h3
      rw [show escChar '\n' = ['\\', 'n'] from rfl]
      simp only [List.cons_append, List.nil_append]
      rw [parseStringBody_bslash,
        parseEsc_simple (by decide) (show unescapeChar 'n' = some '\n' from rfl), IH]
      rfl
    by_cases h4 : c = '\t'
    · subst h4
      rw [show escChar '\t' = ['\\', 't'] from rfl]
      simp only [List.cons_append, List.nil_append]
      rw [parseStringBody_bslash,
        parseEsc_simple (by decide) (show unescapeChar 't' = some '\t' from rfl), IH]
      rfl
    by_cases h5 : c = '\r'
    · subst h5
      rw [show escChar '\r' = ['\\', 'r'] from rfl]
      simp only [List.cons_append, List.nil_append]
      rw [parseStringBody_bslash,
        parseEsc_simple (by decide) (show unescapeChar 'r' = some '\r' from rfl), IH]
      rfl
    by_cases h6 : c = Char.ofNat 0x8
    · subst h6
      rw [show escChar (Char.ofNat 0x8) = ['\\', 'b'] from rfl]
      simp only [List.cons_append, List.nil_append]
      rw [parseStringBody_bslash,
        parseEsc_simple (by decide) (show unescapeChar 'b' = some (Char.ofNat 0x8) from rfl),
        IH]
      rfl
    by_cases h7 : c = Char.ofNat 0xC
    · subst h7
      rw [show escChar (Char.ofNat 0xC) = ['\\', 'f'] from rfl]
      simp only [List.cons_append, List.nil_append]
      rw [parseStringBody_bslash,
        parseEsc_simple (by decide) (show unescapeChar 'f' = some (Char.ofNat 0xC) from rfl),
        IH]
      rfl
    by_cases h8 : c.toNat < 0x20
    · have hesc : escChar c = escU c.toNat := by
        simp [escChar, h1, h2, h3, h4, h5, h6, h7, h8]
      rw [hesc]
      simp only [escU, List.cons_append]
      rw [parseStringBody_bslash]
      unfold parseEsc
      simp only [if_pos rfl]
      rw [hex4_escU (by omega)]
      have hsc : isScalar c.toNat = true := by
        simp only [isScalar, decide_eq_true_eq]
        omega
      simp [hsc, IH, Char.ofNat_toNat]
    · have hesc : escChar c = [c] := by
        simp [escChar, h1, h2, h3, h4, h5, h6, h7, h8]
      rw [hesc]
      simp only [List.singleton_append]
      rw [parseStringBody_cons_plain h1 h2, IH]
      rfl

theorem parseEsc_u (a b c d : Char) (rest2 : List Char) :
    parseEsc ('u' :: a :: b :: c :: d :: rest2)
      = (match hex4 a b c d with
         | some n =>
           if isScalar n then (parseStringBody rest2).map (fun p => (Char.ofNat n :: p.1, p.2))
           else if 0xD800 ≤ n ∧ n ≤ 0xDBFF then parseLowSurr n rest2
           else none
         | none => none) := by
  conv_lhs => rw [parseEsc.eq_def]
  rfl

theorem parseLowSurr_cons (n : Nat) (a2 b2 c2 d2 : Char) (rest3 : List Char) :
    parseLowSurr n ('\\' :: 'u' :: a2 :: b2 :: c2 :: d2 :: rest3)
      = (match hex4 a2 b2 c2 d2 with
         | some m =>
           if 0xDC00 ≤ m ∧ m ≤ 0xDFFF then
             (parseStringBody rest3).map (fun p =>
               (Char.ofNat (0x10000 + (n - 0xD800) * 0x400 + (m - 0xDC00)) :: p.1, p.2))
           else none
         | none => none) := by
  conv_lhs => rw [parseLowSurr.eq_def]
  rfl

/-- The `ensure_ascii=True` analogue of the escape round trip: decoding an
`escCharA`-encoded string body (including `\uXXXX` escapes for non-ASCII BMP
characters and surrogate pairs for astral ones) recovers the characters. -/
theorem parseStringBody_encA : ∀ (s rest : List Char),
    parseStringBody ((s.map escCharA).flatten ++ '"' :: rest) = some (s, rest)
  | [], rest => by simp [parseStringBody]
  | c :: s, rest => by
    have IH := parseStringBody_encA s rest
    simp only [List.map_cons, List.flatten_cons, List.append_assoc]
    by_cases h1 : c = '"'
    · subst h1
      rw [show escCharA '"' = ['\\', '"'] from rfl]
      simp only [List.cons_append, List.nil_append]
      rw [parseStringBody_bslash,
        parseEsc_simple (by decide) (show unescapeChar '"' = some '"' from rfl), IH]
      rfl
    by_cases h2 : c = '\\'
    · subst h2
      rw [show escCharA '\\' = ['\\', '\\'] from rfl]
      simp only [List.cons_append, List.nil_append]
      rw [parseStringBody_bslash,
        parseEsc_simple (by decide) (show unescapeChar '\\' = some '\\' from rfl), IH]
      rfl
    by_cases h3 : c = '\n'
    · subst h3
      rw [show escCharA '\n' = ['\\', 'n'] from rfl]
      simp only [List.cons_append, List.nil_append]
      rw [parseStringBody_bslash,
        parseEsc_simple (by decide) (show unescapeChar 'n' = some '\n' from rfl), IH]
      rfl
    by_cases h4 : c = '\t'
    · subst h4
      rw [show escCharA '\t' = ['\\', 't'] from rfl]
      simp only [List.cons_append, List.nil_append]
      rw [parseStringBody_bslash,
        parseEsc_simple (by decide) (show unescapeChar 't' = some '\t' from rfl), IH]
      rfl
    by_cases h5 : c = '\r'
    · subst h5
      rw [show escCharA '\r' = ['\\', 'r'] from rfl]
      simp only [List.cons_append, List.nil_append]
      rw [parseStringBody_bslash,
        parseEsc_simple (by decide) (show unescapeChar 'r' = some '\r' from rfl), IH]
      rfl
    by_cases h6 : c = Char.ofNat 0x8
    · subst h6
      rw [show escCharA (Char.ofNat 0x8) = ['\\', 'b'] from rfl]
      simp only [List.cons_append, List.nil_append]
      rw [parseStringBody_bslash,
        parseEsc_simple (by decide) (show unescapeChar 'b' = some (Char.ofNat 0x8) from rfl),
        IH]
      rfl
    by_cases h7 : c = Char.ofNat 0xC
    · subst h7
      rw [show escCharA (Char.ofNat 0xC) = ['\\', 'f'] from rfl]
      simp only [List.cons_append, List.nil_append]
      rw [parseStringBody_bslash,
        parseEsc_simple (by decide) (show unescapeChar 'f' = some (Char.ofNat 0xC) from rfl),
        IH]
      rfl
    by_cases h8 : c.toNat < 0x20
    · have hesc : escCharA c = escU c.toNat := by
        simp [escCharA, h1, h2, h3, h4, h5, h6, h7, h8]
      rw [hesc]
      simp only [escU, List.cons_append]
      rw [parseStringBody_bslash, parseEsc_u, hex4_escU (by omega)]
      have hsc : isScalar c.toNat = true := by
        simp only [isScalar, decide_eq_true_eq]
        omega
      simp [hsc, IH, Char.ofNat_toNat]
    by_cases h9 : 0x7F ≤ c.toNat
    · have hval : c.toNat < 0xD800 ∨ (0xDFFF < c.toNat ∧ c.toNat < 0x110000) := c.valid
      by_cases h10 : c.toNat < 0x10000
      · have hesc : escCharA c = escU c.toNat := by
          simp [escCharA, h1, h2, h3, h4, h5, h6, h7, h8, h9, h10]
        rw [hesc]
        simp only [escU, List.cons_append]
        rw [parseStringBody_bslash, parseEsc_u, hex4_escU (by omega)]
        have hsc : isScalar c.toNat = true := by
          simp only [isScalar, decide_eq_true_eq]
          omega
        simp [hsc, IH, Char.ofNat_toNat]
      · have hesc : escCharA c = escU (0xD800 + (c.toNat - 0x10000) / 0x400) ++
            escU (0xDC00 + (c.toNat - 0x10000) % 0x400) := by
          simp [escCharA, h1, h2, h3, h4, h5, h6, h7, h8, h9, h10]
        have hq : (c.toNat - 0x10000) / 0x400 < 0x400 := by omega
        have hr : (c.toNat - 0x10000) % 0x400 < 0x400 := Nat.mod_lt _ (by norm_num)
        rw [hesc]
        simp only [escU, List.cons_append, List.append_assoc, List.nil_append]
        rw [parseStringBody_bslash, parseEsc_u, hex4_escU (by omega)]
        have hsc1 : isScalar (0xD800 + (c.toNat - 0x10000) / 0x400) = false := by
          simp only [isScalar, decide_eq_false_iff_not]
          omega
        have hhi : 0xD800 ≤ 0xD800 + (c.toNat - 0x10000) / 0x400 ∧
            0xD800 + (c.toNat - 0x10000) / 0x400 ≤ 0xDBFF := by omega
        simp only [hsc1, Bool.false_eq_true, if_false, if_pos hhi]
        rw [parseLowSurr_cons, hex4_escU (by omega)]
        have hlo : 0xDC00 ≤ 0xDC00 + (c.toNat - 0x10000) % 0x400 ∧
            0xDC00 + (c.toNat - 0x10000) % 0x400 ≤ 0xDFFF := by omega
        simp only [if_pos hlo]
        rw [IH]
        have hN : 0x10000 + (0xD800 + (c.toNat - 0x10000) / 0x400 - 0xD800) * 0x400 +
            (0xDC00 + (c.toNat - 0x10000) % 0x400 - 0xDC00) = c.toNat := by
          have := Nat.div_add_mod (c.toNat - 0x10000) 0x400
          omega
        simp only [Option.map_some']
        rw [hN, Char.ofNat_toNat]
    · have hesc : escCharA c = [c] := by
        simp [escCharA, h1, h2, h3, h4, h5, h6, h7, h8, h9]
      rw [hesc]
      simp only [List.singleton_append]
      rw [parseStringBody_cons_plain h1 h2, IH]
      rfl

/-! ### Heads of encoded values -/

/-- Characters that can start an encoded JSON value. -/
def headOkC (c : Char) : Bool :=
  c = 'n' ∨ c = 't' ∨ c = 'f' ∨ c = '"' ∨ c = '[' ∨ c = lbrace ∨ c = '-' ∨
  isDigitC c = true

theorem headOk_not_ws {c : Char} (h : headOkC c = true) : jIsWs c = false := by
  simp only [headOkC, decide_eq_true_eq] at h
  rcases h with h | h | h | h | h | h | h | h
  any_goals (subst h; decide)
  simp only [isDigitC, decide_eq_true_eq] at h
  simp only [jIsWs, decide_eq_false_iff_not]
  rintro (rfl | rfl | rfl | rfl) <;> exact absurd h (by decide)

theorem headOk_ne {c : Char} (h : headOkC c = true) :
    c ≠ ']' ∧ c ≠ rbrace ∧ c ≠ ',' ∧ c ≠ ':' := by
  simp only [headOkC, decide_eq_true_eq] at h
  rcases h with h | h | h | h | h | h | h | h
  any_goals (subst h; refine ⟨?_, ?_, ?_, ?_⟩ <;> decide)
  simp only [isDigitC, decide_eq_true_eq] at h
  refine ⟨?_, ?_, ?_, ?_⟩ <;> rintro rfl <;> exact absurd h (by decide)

theorem jSkipWs_cons_neg {c : Char} (t : List Char) (h : jIsWs c = false) :
    jSkipWs (c :: t) = c :: t := by
  simp [jSkipWs, List.dropWhile_cons, h]

theorem encV_shape (esc : Char → List Char) :
    ∀ v : JVal, ∃ c t, encV esc v = c :: t ∧ headOkC c = true := by
  intro v
  cases v with
  | null => exact ⟨'n', _, rfl, by decide⟩
  | bool b =>
    cases b with
    | false => exact ⟨'f', _, rfl, by decide⟩
    | true => exact ⟨'t', _, rfl, by decide⟩
  | num n =>
    simp only [encV, intChars]
    split
    · exact ⟨'-', _, rfl, by decide⟩
    · cases he : natChars n.toNat with
      | nil => exact absurd he (natChars_ne_nil _)
      | cons c t =>
        refine ⟨c, t, rfl, ?_⟩
        have := natChars_digits (n := n.toNat) c (by rw [he]; exact List.mem_cons_self c t)
        simp [headOkC, this]
  | str s => exact ⟨'"', _, rfl, by decide⟩
  | arr xs => exact ⟨'[', _, rfl, by decide⟩
  | obj ms => exact ⟨lbrace, _, rfl, by decide⟩

/-! ### Size measure for parser fuel -/

mutual
/-- Number of value nodes; a lower bound on the parser fuel needed. -/
def jsize : JVal → Nat
  | .arr xs => 1 + jsizeL xs
  | .obj ms => 1 + jsizeM ms
  | .num _ => 1
  | .str _ => 1
  | .null => 1
  | .bool _ => 1

/-- Size of an element list. -/
def jsizeL : List JVal → Nat
  | [] => 0
  | x :: rest => 1 + jsize x + jsizeL rest

/-- Size of a member list. -/
def jsizeM : List (List Char × JVal) → Nat
  | [] => 0
  | (_, v) :: rest => 1 + jsize v + jsizeM rest
end

theorem jsize_pos : ∀ v : JVal, 1 ≤ jsize v
  | .null => le_refl _
  | .bool _ => le_refl _
  | .num _ => le_refl _
  | .str _ => le_refl _
  | .arr _ => by simp [jsize]
  | .obj _ => by simp [jsize]

theorem intChars_ne_nil (n : Int) : intChars n ≠ [] := by
  unfold intChars
  split
  · simp
  · exact natChars_ne_nil _

/-- The head of an encoded number is a minus sign or a digit. -/
theorem intChars_head (n : Int) :
    ∃ c t, intChars n = c :: t ∧ (c = '-' ∨ isDigitC c = true) := by
  unfold intChars
  split
  · exact ⟨'-', _, rfl, Or.inl rfl⟩
  · cases he : natChars n.toNat with
    | nil => exact absurd he (natChars_ne_nil _)
    | cons c t =>
      exact ⟨c, t, rfl, Or.inr (natChars_digits (n := n.toNat) c
        (by rw [he]; exact List.mem_cons_self c t))⟩

theorem numStart_ne {c : Char} (h : c = '-' ∨ isDigitC c = true) :
    jIsWs c = false ∧ c ≠ lbrace ∧ c ≠ '[' ∧ c ≠ '"' ∧ c ≠ 'f' ∧ c ≠ 't' ∧ c ≠ 'n' := by
  rcases h with h | h
  · subst h
    refine ⟨?_, ?_, ?_, ?_, ?_, ?_, ?_⟩ <;> decide
  · simp only [isDigitC, decide_eq_true_eq] at h
    refine ⟨?_, ?_, ?_, ?_, ?_, ?_, ?_⟩
    any_goals (rintro rfl; exact absurd h (by decide))
    simp only [jIsWs, decide_eq_false_iff_not]
    rintro (rfl | rfl | rfl | rfl) <;> exact absurd h (by decide)


theorem encElems_cons (esc : Char → List Char) (x : JVal) (xs : List JVal) :
    ∃ t2, encElems esc (x :: xs) = encV esc x ++ t2 := by
  cases xs with
  | nil => exact ⟨[], by simp [encElems]⟩
  | cons y ys => exact ⟨_, rfl⟩

theorem encMembers_cons (esc : Char → List Char) (k : List Char) (v : JVal)
    (ms : List (List Char × JVal)) :
    ∃ t2, encMembers esc ((k, v) :: ms) = '"' :: t2 := by
  cases ms with
  | nil =>
    refine ⟨((k.map esc).flatten ++ ['"']) ++ ':' :: ' ' :: encV esc v, ?_⟩
    simp [encMembers, encStr]
  | cons m ms2 =>
    refine ⟨((k.map esc).flatten ++ ['"']) ++
      ':' :: ' ' :: (encV esc v ++ ',' :: ' ' :: encMembers esc (m :: ms2)), ?_⟩
    simp [encMembers, encStr]

/-! ### One-step parser unfoldings -/

theorem jSkipWs_space (l : List Char) : jSkipWs (' ' :: l) = jSkipWs l := by
  have h : jIsWs ' ' = true := by decide
  simp [jSkipWs, List.dropWhile_cons, h]

theorem numDelim_comma (l : List Char) : numDelim (',' :: l) = true := rfl

theorem numDelim_rbracket (l : List Char) : numDelim (']' :: l) = true := rfl

theorem numDelim_rbrace (l : List Char) : numDelim (rbrace :: l) = true := rfl

theorem parseVal_str_step (fuel : Nat) (r : List Char) :
    parseVal (fuel + 1) ('"' :: r)
      = (parseStringBody r).map (fun p => (JVal.str p.1, p.2)) := by
  unfold parseVal
  rw [jSkipWs_cons_neg _ (by decide)]
  rfl

theorem parseVal_arr_step (fuel : Nat) (r : List Char) :
    parseVal (fuel + 1) ('[' :: r)
      = (match jSkipWs r with
         | [] => none
         | c2 :: r2 =>
           if c2 = ']' then some (JVal.arr [], r2)
           else (parseElems fuel (c2 :: r2)).map (fun p => (JVal.arr p.1, p.2))) := by
  unfold parseVal
  rw [jSkipWs_cons_neg _ (by decide)]
  rfl

theorem parseVal_obj_step (fuel : Nat) (r : List Char) :
    parseVal (fuel + 1) (lbrace :: r)
      = (match jSkipWs r with
         | [] => none
         | c2 :: r2 =>
           if c2 = rbrace then some (JVal.obj [], r2)
           else (parseMembers fuel (c2 :: r2)).map (fun p => (JVal.obj p.1, p.2))) := by
  unfold parseVal
  rw [jSkipWs_cons_neg _ (by decide)]
  rfl

theorem parseVal_to_parseNum (fuel : Nat) (c : Char) (t : List Char)
    (hws : jIsWs c = false) (hn : c ≠ 'n') (ht : c ≠ 't') (hf : c ≠ 'f')
    (hq : c ≠ '"') (hbk : c ≠ '[') (hbc : c ≠ lbrace)
    (hg : c = '-' ∨ isDigitC c = true) :
    parseVal (fuel + 1) (c :: t) = parseNum (c :: t) := by
  unfold parseVal
  rw [jSkipWs_cons_neg _ hws]
  simp [hn, ht, hf, hq, hbk, hbc, hg]

theorem parseElems_step (fuel : Nat) (l : List Char) :
    parseElems (fuel + 1) l
      = (match parseVal fuel l with
         | none => none
         | some (v, r) =>
           match jSkipWs r with
           | [] => none
           | c :: r2 =>
             if c = ',' then (parseElems fuel (jSkipWs r2)).map (fun p => (v :: p.1, p.2))
             else if c = ']' then some ([v], r2)
             else none) := by
  conv_lhs => rw [parseElems.eq_def]

theorem parseMembers_cons_step (fuel : Nat) (r : List Char) :
    parseMembers (fuel + 1) ('"' :: r)
      = (match parseStringBody r with
         | none => none
         | some (k, r1) =>
           match jSkipWs r1 with
           | ':' :: r2 =>
             match parseVal fuel (jSkipWs r2) with
             | none => none
             | some (v, r3) =>
               match jSkipWs r3 with
               | [] => none
               | c4 :: r4 =>
                 if c4 = ',' then
                   (parseMembers fuel (jSkipWs r4)).map (fun p => ((k, v) :: p.1, p.2))
                 else if c4 = rbrace then some ([(k, v)], r4)
                 else none
           | _ => none) := by
  conv_lhs => rw [parseMembers.eq_def]
  rfl

/-! ### Round trip of the codec -/

mutual
theorem rt_val (esc : Char → List Char)
    (hesc : ∀ s r2, parseStringBody ((s.map esc).flatten ++ '"' :: r2) = some (s, r2)) :
    ∀ (v : JVal) (fuel : Nat) (rest : List Char),
    jsize v ≤ fuel → numDelim rest = true →
    parseVal fuel (encV esc v ++ rest) = some (v, rest)
  | v, 0, _, hf, _ => absurd hf (by have := jsize_pos v; omega)
  | .null, fuel + 1, rest, _, _ => by
    show parseVal (fuel + 1) ('n' :: 'u' :: 'l' :: 'l' :: rest) = some (JVal.null, rest)
    unfold parseVal
    rw [jSkipWs_cons_neg _ (by decide)]
    simp
  | .bool true, fuel + 1, rest, _, _ => by
    show parseVal (fuel + 1) ('t' :: 'r' :: 'u' :: 'e' :: rest) = some (JVal.bool true, rest)
    unfold parseVal
    rw [jSkipWs_cons_neg _ (by decide)]
    simp
  | .bool false, fuel + 1, rest, _, _ => by
    show parseVal (fuel + 1) ('f' :: 'a' :: 'l' :: 's' :: 'e' :: rest)
      = some (JVal.bool false, rest)
    unfold parseVal
    rw [jSkipWs_cons_neg _ (by decide)]
    simp
  | .num n, fuel + 1, rest, _, hr => by
    obtain ⟨c, t, he, hc⟩ := intChars_head n
    obtain ⟨hn7, hn6, hn5, hn4, hn3, hn2, hn1⟩ := numStart_ne hc
    show parseVal (fuel + 1) (intChars n ++ rest) = some (JVal.num n, rest)
    rw [he, List.cons_append,
      parseVal_to_parseNum fuel c (t ++ rest) hn7 hn1 hn2 hn3 hn4 hn5 hn6 hc,
      ← List.cons_append, ← he]
    exact parseNum_intChars n hr
  | .str s, fuel + 1, rest, _, _ => by
    have harg : encV esc (.str s) ++ rest
        = '"' :: ((s.map esc).flatten ++ '"' :: rest) := by
      simp [encV, encStr]
    rw [harg, parseVal_str_step, hesc s rest]
    rfl
  | .arr [], fuel + 1, rest, _, _ => by
    have harg : encV esc (.arr []) ++ rest = '[' :: (']' :: rest) := by
      simp [encV, encElems]
    rw [harg, parseVal_arr_step, jSkipWs_cons_neg _ (by decide)]
    simp
  | .arr (x :: xs), fuel + 1, rest, hf, _ => by
    have hfL : jsizeL (x :: xs) ≤ fuel := by
      simp only [jsize] at hf
      omega
    obtain ⟨c2, t2, he2, hok2⟩ := encV_shape esc x
    obtain ⟨t3, he3⟩ := encElems_cons esc x xs
    have harg : encV esc (.arr (x :: xs)) ++ rest
        = '[' :: (encElems esc (x :: xs) ++ ']' :: rest) := by
      simp [encV]
    have hshape : encElems esc (x :: xs) ++ ']' :: rest
        = c2 :: (t2 ++ (t3 ++ ']' :: rest)) := by
      rw [he3, he2]
      simp
    have hrec := rt_elems esc hesc x xs fuel rest hfL
    rw [harg, parseVal_arr_step, hshape, jSkipWs_cons_neg _ (headOk_not_ws hok2)]
    simp only [if_neg (headOk_ne hok2).1]
    rw [← hshape, hrec]
    rfl
  | .obj [], fuel + 1, rest, _, _ => by
    have harg : encV esc (.obj []) ++ rest = lbrace :: (rbrace :: rest) := by
      simp [encV, encMembers]
    rw [harg, parseVal_obj_step, jSkipWs_cons_neg _ (by decide)]
    simp
  | .obj ((k, v) :: ms), fuel + 1, rest, hf, _ => by
    have hfM : jsizeM ((k, v) :: ms) ≤ fuel := by
      simp only [jsize] at hf
      omega
    obtain ⟨t3, he3⟩ := encMembers_cons esc k v ms
    have harg : encV esc (.obj ((k, v) :: ms)) ++ rest
        = lbrace :: (encMembers esc ((k, v) :: ms) ++ rbrace :: rest) := by
      simp [encV]
    have hshape : encMembers esc ((k, v) :: ms) ++ rbrace :: rest
        = '"' :: (t3 ++ rbrace :: rest) := by
      rw [he3]
      simp
    have hrec := rt_members esc hesc k v ms fuel rest hfM
    rw [harg, parseVal_obj_step, hshape, jSkipWs_cons_neg _ (by decide)]
    simp only [if_neg (show ¬('"' = rbrace) by decide)]
    rw [← hshape, hrec]
    rfl
termination_by v _ _ _ _ => sizeOf v

theorem rt_elems (esc : Char → List Char)
    (hesc : ∀ s r2, parseStringBody ((s.map esc).flatten ++ '"' :: r2) = some (s, r2)) :
    ∀ (x : JVal) (xs : List JVal) (fuel : Nat) (rest : List Char),
    jsizeL (x :: xs) ≤ fuel →
    parseElems fuel (encElems esc (x :: xs) ++ ']' :: rest) = some (x :: xs, rest)
  | x, _, 0, _, hf => by
    exfalso
    have := jsize_pos x
    simp only [jsizeL] at hf
    omega
  | x, [], fuel + 1, rest, hf => by
    have hfx : jsize x ≤ fuel := by
      simp only [jsizeL] at hf
      omega
    have harg : encElems esc [x] ++ ']' :: rest = encV esc x ++ ']' :: rest := by
      simp [encElems]
    have hv := rt_val esc hesc x fuel (']' :: rest) hfx (numDelim_rbracket rest)
    have hsk : jSkipWs (']' :: rest) = ']' :: rest := jSkipWs_cons_neg _ (by decide)
    rw [harg, parseElems_step, hv]
    simp [hsk]
  | x, y :: ys, fuel + 1, rest, hf => by
    have hfx : jsize x ≤ fuel := by
      simp only [jsizeL] at hf
      omega
    have hfy : jsizeL (y :: ys) ≤ fuel := by
      simp only [jsizeL] at hf ⊢
      omega
    obtain ⟨cy, ty, hey, hoky⟩ := encV_shape esc y
    obtain ⟨ty3, hey3⟩ := encElems_cons esc y ys
    have harg : encElems esc (x :: y :: ys) ++ ']' :: rest
        = encV esc x ++ (',' :: ' ' :: (encElems esc (y :: ys) ++ ']' :: rest)) := by
      simp [encElems]
    have hshape : encElems esc (y :: ys) ++ ']' :: rest
        = cy :: (ty ++ (ty3 ++ ']' :: rest)) := by
      rw [hey3, hey]
      simp
    have hskc : jSkipWs (',' :: ' ' :: (encElems esc (y :: ys) ++ ']' :: rest))
        = ',' :: ' ' :: (encElems esc (y :: ys) ++ ']' :: rest) :=
      jSkipWs_cons_neg _ (by decide)
    have hsk : jSkipWs (' ' :: (encElems esc (y :: ys) ++ ']' :: rest))
        = encElems esc (y :: ys) ++ ']' :: rest := by
      rw [jSkipWs_space, hshape, jSkipWs_cons_neg _ (headOk_not_ws hoky)]
    have hv := rt_val esc hesc x fuel (',' :: ' ' :: (encElems esc (y :: ys) ++ ']' :: rest))
      hfx (numDelim_comma _)
    have hrec := rt_elems esc hesc y ys fuel rest hfy
    rw [harg, parseElems_step, hv]
    simp [hskc, hsk, hrec]
termination_by x xs _ _ _ => sizeOf x + sizeOf xs

theorem rt_members (esc : Char → List Char)
    (hesc : ∀ s r2, parseStringBody ((s.map esc).flatten ++ '"' :: r2) = some (s, r2)) :
    ∀ (k : List Char) (v : JVal) (ms : List (List Char × JVal))
    (fuel : Nat) (rest : List Char), jsizeM ((k, v) :: ms) ≤ fuel →
    parseMembers fuel (encMembers esc ((k, v) :: ms) ++ rbrace :: rest)
      = some ((k, v) :: ms, rest)
  | _, v, _, 0, _, hf => by
    exfalso
    have := jsize_pos v
    simp only [jsizeM] at hf
    omega
  | k, v, [], fuel + 1, rest, hf => by
    have hfv : jsize v ≤ fuel := by
      simp only [jsizeM] at hf
      omega
    obtain ⟨cv, tv, hev, hokv⟩ := encV_shape esc v
    have harg : encMembers esc [(k, v)] ++ rbrace :: rest
        = '"' :: ((k.map esc).flatten ++
            '"' :: (':' :: ' ' :: (encV esc v ++ rbrace :: rest))) := by
      simp [encMembers, encStr]
    have hskc : jSkipWs (':' :: ' ' :: (encV esc v ++ rbrace :: rest))
        = ':' :: ' ' :: (encV esc v ++ rbrace :: rest) :=
      jSkipWs_cons_neg _ (by decide)
    have hskv : jSkipWs (' ' :: (encV esc v ++ rbrace :: rest))
        = encV esc v ++ rbrace :: rest := by
      rw [jSkipWs_space, hev, List.cons_append, jSkipWs_cons_neg _ (headOk_not_ws hokv)]
    have hskb : jSkipWs (rbrace :: rest) = rbrace :: rest :=
      jSkipWs_cons_neg _ (by decide)
    have hne1 : ¬(rbrace = ',') := by decide
    have hv := rt_val esc hesc v fuel (rbrace :: rest) hfv (numDelim_rbrace rest)
    rw [harg, parseMembers_cons_step, hesc k _]
    simp [hskc, hskv, hskb, hv, hne1]
  | k, v, (k2, v2) :: ms2, fuel + 1, rest, hf => by
    have hfv : jsize v ≤ fuel := by
      simp only [jsizeM] at hf
      omega
    have hfm : jsizeM ((k2, v2) :: ms2) ≤ fuel := by
      simp only [jsizeM] at hf ⊢
      omega
    obtain ⟨cv, tv, hev, hokv⟩ := encV_shape esc v
    obtain ⟨tm, hem⟩ := encMembers_cons esc k2 v2 ms2
    have harg : encMembers esc ((k, v) :: (k2, v2) :: ms2) ++ rbrace :: rest
        = '"' :: ((k.map esc).flatten ++
            '"' :: (':' :: ' ' :: (encV esc v ++
              (',' :: ' ' :: (encMembers esc ((k2, v2) :: ms2) ++ rbrace :: rest))))) := by
      simp [encMembers, encStr]
    have hskc : jSkipWs (':' :: ' ' :: (encV esc v ++
        (',' :: ' ' :: (encMembers esc ((k2, v2) :: ms2) ++ rbrace :: rest))))
        = ':' :: ' ' :: (encV esc v ++
          (',' :: ' ' :: (encMembers esc ((k2, v2) :: ms2) ++ rbrace :: rest))) :=
      jSkipWs_cons_neg _ (by decide)
    have hskv : jSkipWs (' ' :: (encV esc v ++
        (',' :: ' ' :: (encMembers esc ((k2, v2) :: ms2) ++ rbrace :: rest))))
        = encV esc v ++
          (',' :: ' ' :: (encMembers esc ((k2, v2) :: ms2) ++ rbrace :: rest)) := by
      rw [jSkipWs_space, hev, List.cons_append, jSkipWs_cons_neg _ (headOk_not_ws hokv)]
    have hskc2 : jSkipWs (',' :: ' ' :: (encMembers esc ((k2, v2) :: ms2) ++ rbrace :: rest))
        = ',' :: ' ' :: (encMembers esc ((k2, v2) :: ms2) ++ rbrace :: rest) :=
      jSkipWs_cons_neg _ (by decide)
    have hskm : jSkipWs (' ' :: (encMembers esc ((k2, v2) :: ms2) ++ rbrace :: rest))
        = encMembers esc ((k2, v2) :: ms2) ++ rbrace :: rest := by
      rw [jSkipWs_space, hem, List.cons_append, jSkipWs_cons_neg _ (by decide)]
    have hv := rt_val esc hesc v fuel
      (',' :: ' ' :: (encMembers esc ((k2, v2) :: ms2) ++ rbrace :: rest))
      hfv (numDelim_comma _)
    have hrec := rt_members esc hesc k2 v2 ms2 fuel rest hfm
    rw [harg, parseMembers_cons_step, hesc k _]
    simp [hskc, hskv, hskc2, hskm, hv, hrec]
termination_by _ v ms _ _ => sizeOf v + sizeOf ms
end

/-! ### Fuel bound and whole round trip -/

theorem encStr_length (esc : Char → List Char) (s : List Char) :
    2 ≤ (encStr esc s).length := by
  simp [encStr]

mutual
theorem szV : ∀ (esc : Char → List Char) (v : JVal), jsize v ≤ (encV esc v).length
  | _, .null => by simp [jsize, encV]
  | _, .bool true => by simp [jsize, encV]
  | _, .bool false => by simp [jsize, encV]
  | _, .num n => by
    obtain ⟨c, t, he, _⟩ := intChars_head n
    simp [jsize, encV, he]
  | esc, .str s => by
    have := encStr_length esc s
    simp only [jsize, encV]
    omega
  | esc, .arr xs => by
    have := szL esc xs
    simp only [jsize, encV]
    simp only [List.length_cons, List.length_append, List.length_singleton]
    omega
  | esc, .obj ms => by
    have := szM esc ms
    simp only [jsize, encV]
    simp only [List.length_cons, List.length_append, List.length_singleton]
    omega

theorem szL : ∀ (esc : Char → List Char) (xs : List JVal),
    jsizeL xs ≤ (encElems esc xs).length + 1
  | _, [] => by simp [jsizeL, encElems]
  | esc, [x] => by
    have := szV esc x
    simp only [jsizeL, encElems]
    omega
  | esc, x :: y :: ys => by
    have h1 := szV esc x
    have h2 := szL esc (y :: ys)
    simp only [jsizeL, encElems, List.length_append, List.length_cons]
    simp only [jsizeL] at h2
    omega

theorem szM : ∀ (esc : Char → List Char) (ms : List (List Char × JVal)),
    jsizeM ms ≤ (encMembers esc ms).length + 1
  | _, [] => by simp [jsizeM, encMembers]
  | esc, [(k, v)] => by
    have h1 := szV esc v
    have h2 := encStr_length esc k
    simp only [jsizeM, encMembers, List.length_append, List.length_cons]
    omega
  | esc, (k, v) :: m :: ms2 => by
    have h1 := szV esc v
    have h2 := encStr_length esc k
    have h3 := szM esc (m :: ms2)
    simp only [jsizeM, encMembers, List.length_append, List.length_cons]
    simp only [jsizeM] at h3
    omega
end

/-- Whole-codec round trip: `json.loads(json.dumps(obj, ensure_ascii=False))`
recovers the value. -/
theorem loads_dumps (v : JVal) : loads (dumps v) = some v := by
  have hsz : jsize v ≤ (dumps v).length + 1 := by
    have := szV escChar v
    simp only [dumps]
    omega
  have h := rt_val escChar parseStringBody_enc v ((dumps v).length + 1) [] hsz (by decide)
  simp only [List.append_nil] at h
  simp only [loads, dumps] at h ⊢
  rw [h]
  rfl

/-- The same round trip for the `ensure_ascii=True` writer of
check_manifest.py: `json.loads` decodes every `\uXXXX` escape (and surrogate
pair) that `json.dumps(obj)` emits. -/
theorem loads_dumpsAscii (v : JVal) : loads (dumpsAscii v) = some v := by
  have hsz : jsize v ≤ (dumpsAscii v).length + 1 := by
    have := szV escCharA v
    simp only [dumpsAscii]
    omega
  have h := rt_val escCharA parseStringBody_encA v ((dumpsAscii v).length + 1) [] hsz
    (by decide)
  simp only [List.append_nil] at h
  simp only [loads, dumpsAscii] at h ⊢
  rw [h]
  rfl

/-! ### Literal preservation under `ensure_ascii=False` -/

theorem escChar_plain {c : Char} (h1 : 0x20 ≤ c.toNat) (h2 : c ≠ '"') (h3 : c ≠ '\\') :
    escChar c = [c] := by
  unfold escChar
  rw [if_neg h2, if_neg h3]
  rw [if_neg (by rintro rfl; exact absurd h1 (by decide))]
  rw [if_neg (by rintro rfl; exact absurd h1 (by decide))]
  rw [if_neg (by rintro rfl; exact absurd h1 (by decide))]
  rw [if_neg (by rintro rfl; exact absurd h1 (by decide))]
  rw [if_neg (by rintro rfl; exact absurd h1 (by decide))]
  rw [if_neg (by omega)]

theorem flatten_plain : ∀ s : List Char,
    (∀ c ∈ s, 0x20 ≤ c.toNat ∧ c ≠ '"' ∧ c ≠ '\\') →
    (s.map escChar).flatten = s
  | [], _ => rfl
  | c :: s, h => by
    have hc := h c (List.mem_cons_self c s)
    have IH := flatten_plain s (fun x hx => h x (List.mem_cons_of_mem c hx))
    simp [escChar_plain hc.1 hc.2.1 hc.2.2, IH]

theorem encStr_literal (s : List Char)
    (h : ∀ c ∈ s, 0x20 ≤ c.toNat ∧ c ≠ '"' ∧ c ≠ '\\') :
    encStr escChar s = '"' :: (s ++ ['"']) := by
  simp [encStr, flatten_plain s h]

/-- C5: counterexample to "encoding never escapes beyond what the wire format
requires; non-ASCII text is written literally". check_manifest.py's writer
calls `json.dumps(obj)` with the default `ensure_ascii=True`, so the non-ASCII
letter é in a kept record is written as the escape `\u00e9`, not literally;
the two writers therefore produce different lines for the same record. -/
theorem C5_counterexample :
    'é' ∈ ['é'] ∧
    dumpsAscii (JVal.obj [(['t', 'e', 'x', 't'], JVal.str ['é'])]) ≠
      dumps (JVal.obj [(['t', 'e', 'x', 't'], JVal.str ['é'])]) ∧
    'é' ∉ dumpsAscii (JVal.obj [(['t', 'e', 'x', 't'], JVal.str ['é'])]) ∧
    ['\\', 'u', '0', '0', 'e', '9'] <:+:
      dumpsAscii (JVal.obj [(['t', 'e', 'x', 't'], JVal.str ['é'])]) := by
  decide

/-- C5 (amended): round-trip fidelity holds for all three writers —
re-parsing either the `ensure_ascii=False` encoding (check_manifest2.py,
filter_manifest.py) or the default ASCII-escaping encoding
(check_manifest.py) recovers the record field for field — and the
`ensure_ascii=False` writers also write every character that is neither a
control character, a double quote nor a backslash literally. The claim's
no-unnecessary-escaping clause fails only for check_manifest.py's
ASCII-escaping writer. -/
theorem C5_amended (v : JVal) (s : List Char)
    (h : ∀ c ∈ s, 0x20 ≤ c.toNat ∧ c ≠ '"' ∧ c ≠ '\\') :
    loads (dumps v) = some v ∧ loads (dumpsAscii v) = some v ∧
    dumps (JVal.str s) = '"' :: (s ++ ['"']) :=
  ⟨loads_dumps v, loads_dumpsAscii v, by simp only [dumps, encV]; exact encStr_literal s h⟩

theorem C5_amended_witness :
    (∀ c ∈ ['é'], 0x20 ≤ c.toNat ∧ c ≠ '"' ∧ c ≠ '\\') ∧
    (loads (dumps (JVal.obj [(['t'], JVal.str ['é'])]))
        = some (JVal.obj [(['t'], JVal.str ['é'])]) ∧
      loads (dumpsAscii (JVal.obj [(['t'], JVal.str ['é'])]))
        = some (JVal.obj [(['t'], JVal.str ['é'])]) ∧
      dumps (JVal.str ['é']) = '"' :: (['é'] ++ ['"'])) :=
  ⟨by decide, C5_amended (JVal.obj [(['t'], JVal.str ['é'])]) ['é'] (by decide)⟩

/-! ### Record field access and Python equality on manifest values -/

/-- The manifest field names used by the checkers. -/
def kRecording : List Char := "recording".toList

def kSamplingRate : List Char := "sampling_rate".toList

def kDuration : List Char := "duration".toList

def kSupervisions : List Char := "supervisions".toList

def kText : List Char := "text".toList

def kChannel : List Char := "channel".toList

/-- `obj.get(key)` on a parsed JSON dict: `none` both when the key is absent
and when the record is not a dict. -/
def jGet (v : JVal) (k : List Char) : Option JVal :=
  match v with
  | .obj ms => getKey k ms
  | _ => none

/-- `d[key] = value` on a parsed JSON dict (keys from `json.loads` are
unique, so replacing the first match is Python assignment). -/
def setKey (k : List Char) (v : JVal) : List (List Char × JVal) → List (List Char × JVal)
  | [] => [(k, v)]
  | (k2, v2) :: rest => if k2 = k then (k2, v) :: rest else (k2, v2) :: setKey k v rest

mutual
/-- Python `==` as applied to manifest field values (numbers, strings,
lists, null; `bool` compares as the int 0/1). Dicts never appear as channel
or sampling-rate values, so comparing two dicts is left `false`. -/
def jeq : JVal → JVal → Bool
  | .null, .null => true
  | .str a, .str b => a = b
  | .arr a, .arr b => jeqL a b
  | .num a, .num b => a = b
  | .num a, .bool b => a = (if b then 1 else 0)
  | .bool a, .num b => (if a then (1 : Int) else 0) = b
  | .bool a, .bool b => a = b
  | _, _ => false

/-- Python `==` on lists: pointwise, same length. -/
def jeqL : List JVal → List JVal → Bool
  | [], [] => true
  | a :: xs, b :: ys => jeq a b && jeqL xs ys
  | _, _ => false
end

/-- The channel histogram key (check_manifest.py lines 82-89,
check_manifest2.py lines 230-236): a list is counted as its tuple, `None`
(or an absent field) is not counted, any other value `v` is counted as the
one-element tuple `(v,)`. -/
def ch_key : Option JVal → Option (List JVal)
  | some (.arr xs) => some xs
  | some .null => none
  | none => none
  | some v => some [v]

/-- `obj.get("recording", {}).get("sampling_rate")`; a non-dict
`recording` value would raise in Python and is not modelled. -/
def recSr (obj : JVal) : Option JVal :=
  match jGet obj kRecording with
  | some (.obj ms) => getKey kSamplingRate ms
  | _ => none

/-- check_manifest.py's --fix keep decision (line 99): raw
`sr == target_sampling_rate and ch == target_channel`, with Python's `None`
for absent fields. -/
def keep_fix (sr ch : Option JVal) (target_sr : Int) (target_channel : JVal) : Bool :=
  jeq (sr.getD .null) (.num target_sr) && jeq (ch.getD .null) target_channel

/-! ### filter_manifest.py: compute_min_seconds and filter_line -/

/-- The `--pad-mode` choices. -/
inductive PadMode where
  | reflect
  | replicate
  | constant
deriving DecidableEq

/-- compute_min_seconds (filter_manifest.py lines 25-34): an explicit
`--min-seconds` wins; reflect/replicate padding derives
`(n_fft // 2 + 1) / target_sr`; constant padding imposes no constraint. -/
def compute_min_seconds (min_seconds : Option Rat) (pad_mode : PadMode)
    (n_fft : Nat) (target_sr : Nat) : Rat :=
  match min_seconds with
  | some m => m
  | none =>
    match pad_mode with
    | .reflect => ((n_fft / 2 + 1 : Nat) : Rat) / (target_sr : Rat)
    | .replicate => ((n_fft / 2 + 1 : Nat) : Rat) / (target_sr : Rat)
    | .constant => 0

/-- Python `float(v)` on a JSON value: numbers and bools convert, `None` and
containers raise (`none` here); numeric strings are not modelled (manifest
durations are numbers). -/
def pyFloat : JVal → Option Rat
  | .num n => some (n : Rat)
  | .bool b => some (if b then 1 else 0)
  | _ => none

/-- The supervisions list of a record; `obj.get("supervisions")` values that
are not lists are not modelled (Python would raise iterating them). -/
def supList (obj : JVal) : List JVal :=
  match jGet obj kSupervisions with
  | some (.arr xs) => xs
  | _ => []

/-- One supervision's duration test inside filter_line: `True` when the
supervision is rejected (`float` raised, or duration below the
threshold). -/
def supShort (min_seconds : Rat) (s : JVal) : Bool :=
  match pyFloat ((jGet s kDuration).getD (.num 0)) with
  | none => true
  | some d => d < min_seconds

/-- filter_line (filter_manifest.py lines 36-55): keep iff
`float(obj.get("duration", 0.0))` is at least `min_seconds` (exceptions
reject), and, with `--check-supervisions`, every supervision passes the same
test. -/
def filter_line (obj : JVal) (min_seconds : Rat) (check_supervisions : Bool) : Bool :=
  match pyFloat ((jGet obj kDuration).getD (.num 0)) with
  | none => false
  | some d =>
    if d < min_seconds then false
    else if check_supervisions then (supList obj).all (fun s => !supShort min_seconds s)
    else true

/-! ### check_manifest2.py: the per-entry decision -/

/-- The command-line arguments that drive check_manifest2.py's per-entry
decision. -/
structure Args2 where
  keep_empty_text : Bool
  min_duration : Rat
  target_sampling_rate : Int
  target_channel : JVal

/-- What became of one well-formed entry in check_manifest2.py's main loop. -/
inductive EntryOutcome where
  | droppedEmptyText
  | droppedDuration
  | notMatched
  | kept
deriving DecidableEq, Repr

/-- `sup["text"] = normalize_text(sup["text"])[0]` for a string text
(check_manifest2.py lines 250-255); non-dict supervisions are not
modelled. -/
def normSup (s : JVal) : JVal :=
  match s with
  | .obj ms =>
    match getKey kText ms with
    | some (.str t) => .obj (setKey kText (.str (normalize_text t).1) ms)
    | _ => s
  | _ => s

/-- The all-texts-empty test (check_manifest2.py line 265): a supervision
counts as empty when its text is not a string or strips to nothing. -/
def isEmptyTextSup (s : JVal) : Bool :=
  match s with
  | .obj ms =>
    match getKey kText ms with
    | some (.str t) => pyStrip t = []
    | _ => true
  | _ => true

/-- `isinstance(dur, (int, float))` then the value (Python bools are ints). -/
def durNum : Option JVal → Option Rat
  | some (.num n) => some (n : Rat)
  | some (.bool b) => some (if b then 1 else 0)
  | _ => none

/-- One entry of check_manifest2.py's main loop (lines 245-288), after JSON
parsing succeeded: returns the outcome together with the increments of the
`empty_text_after_norm` and `too_short_duration` counters. The empty-text
test runs first (on the normalized supervision texts), then the duration
rule, then the sampling-rate/channel match. -/
def entryStep (a : Args2) (obj : JVal) : EntryOutcome × Nat × Nat :=
  let nsups := (supList obj).map normSup
  let emptyAll : Bool := !nsups.isEmpty && nsups.all isEmptyTextSup
  let emptyInc := if emptyAll then 1 else 0
  if emptyAll && !a.keep_empty_text then (.droppedEmptyText, emptyInc, 0)
  else
    match durNum (jGet obj kDuration) with
    | none => (.droppedDuration, emptyInc, 0)
    | some d =>
      if d < a.min_duration then (.droppedDuration, emptyInc, 1)
      else if jeq ((recSr obj).getD .null) (.num a.target_sampling_rate)
          && jeq ((jGet obj kChannel).getD .null) a.target_channel then
        (.kept, emptyInc, 0)
      else (.notMatched, emptyInc, 0)

/-- C7: channel counting vs. filtering. A raw channel of `n` and of `[n]`
land in the same histogram bucket (the singleton tuple), yet Python `==` does
not identify the bare integer with the one-element list, so with
`target_channel=[n]` the keep decision rejects a record whose raw channel is
the bare integer `n`, whatever its sampling rate. -/
theorem C7_ok (n : Int) :
    ch_key (some (JVal.num n)) = ch_key (some (JVal.arr [JVal.num n])) ∧
    jeq (JVal.num n) (JVal.arr [JVal.num n]) = false ∧
    ∀ sr : Option JVal, keep_fix sr (some (JVal.num n)) 24000 (JVal.arr [JVal.num n]) = false := by
  have hjeq : jeq (JVal.num n) (JVal.arr [JVal.num n]) = false := by
    simp [jeq]
  refine ⟨rfl, hjeq, fun sr => ?_⟩
  simp [keep_fix, hjeq]

/-- C6: counterexample to "a record whose duration field is missing is
rejected by the duration rule" for every set min_duration. filter_manifest.py
reads a missing duration as `0.0`, and with constant padding the derived
threshold is `0.0`, so a record with no duration field is KEPT. -/
theorem C6_counterexample :
    compute_min_seconds none PadMode.constant 1024 24000 = 0 ∧
    (jGet (JVal.obj [(kRecording, JVal.obj [(kSamplingRate, JVal.num 24000)])])
      kDuration).isNone = true ∧
    filter_line (JVal.obj [(kRecording, JVal.obj [(kSamplingRate, JVal.num 24000)])])
      (compute_min_seconds none PadMode.constant 1024 24000) false = true := by
  decide

/-- C6 (amended): filter_line treats a missing duration as `0.0`, so such a
record is rejected exactly when `0 < min_seconds` (not always, as claimed);
a present duration is rejected exactly when strictly below the threshold,
and a duration equal to the threshold is kept. -/
theorem C6_amended (m : Rat) (n : Int) (ms : List (List Char × JVal))
    (h : getKey kDuration ms = none) :
    (filter_line (JVal.obj ms) m false = true ↔ m ≤ 0) ∧
    (filter_line (JVal.obj ((kDuration, JVal.num n) :: ms)) m false = true ↔ m ≤ (n : Rat)) ∧
    filter_line (JVal.obj ((kDuration, JVal.num n) :: ms)) ((n : Int) : Rat) false = true := by
  have h0 : filter_line (JVal.obj ms) m false = (if (0 : Rat) < m then false else true) := by
    simp [filter_line, jGet, h, pyFloat]
  have h1 : ∀ mm : Rat, filter_line (JVal.obj ((kDuration, JVal.num n) :: ms)) mm false
      = (if (n : Rat) < mm then false else true) := by
    intro mm
    simp [filter_line, jGet, getKey, pyFloat]
  refine ⟨?_, ?_, ?_⟩
  · rw [h0]
    by_cases hm : (0 : Rat) < m
    · simp only [if_pos hm]
      simp only [Bool.false_eq_true, false_iff, not_le]
      exact hm
    · simp only [if_neg hm]
      simp [not_lt.mp hm]
  · rw [h1 m]
    by_cases hm : (n : Rat) < m
    · simp only [if_pos hm]
      simp only [Bool.false_eq_true, false_iff, not_le]
      exact hm
    · simp only [if_neg hm]
      simp [not_lt.mp hm]
  · rw [h1 ((n : Int) : Rat)]
    simp

theorem C6_amended_witness :
    getKey kDuration ([] : List (List Char × JVal)) = none ∧
    ((filter_line (JVal.obj []) 1 false = true ↔ (1 : Rat) ≤ 0) ∧
     (filter_line (JVal.obj [(kDuration, JVal.num 2)]) 1 false = true
        ↔ (1 : Rat) ≤ ((2 : Int) : Rat)) ∧
     filter_line (JVal.obj [(kDuration, JVal.num 2)]) ((2 : Int) : Rat) false = true) :=
  ⟨rfl, C6_amended 1 2 [] rfl⟩

/-- C2: counterexample to the claimed duration-first precedence. With
`--fix` semantics (keep_empty_text = false, min_duration = 3), a record
whose duration 1 is below the threshold and whose sole supervision text
normalizes to empty is dropped by the EMPTY-TEXT rule: the
empty_text_after_norm counter gets 1 and the too_short_duration counter gets
0, so the rejection is not attributed to the duration rule. -/
theorem C2_counterexample :
    entryStep ⟨false, 3, 24000, JVal.arr [JVal.num 0]⟩
      (JVal.obj [(kDuration, JVal.num 1),
        (kSupervisions, JVal.arr [JVal.obj [(kText, JVal.str [' '])]]),
        (kRecording, JVal.obj [(kSamplingRate, JVal.num 24000)]),
        (kChannel, JVal.arr [JVal.num 0])])
      = (EntryOutcome.droppedEmptyText, 1, 0) ∧
    durNum (jGet (JVal.obj [(kDuration, JVal.num 1),
        (kSupervisions, JVal.arr [JVal.obj [(kText, JVal.str [' '])]]),
        (kRecording, JVal.obj [(kSamplingRate, JVal.num 24000)]),
        (kChannel, JVal.arr [JVal.num 0])]) kDuration) = some 1 ∧
    (1 : Rat) < 3 := by
  decide

/-- C2 (amended): check_manifest2.py applies the empty-text rule FIRST: for
any entry whose supervisions are nonempty and all normalize to empty text,
and with keep_empty_text off, the outcome is droppedEmptyText with the
empty-text counter incremented and the too-short counter untouched —
regardless of the duration (even one below min_duration). Duration is
checked only afterwards, then sampling rate and channel together. -/
theorem C2_amended (a : Args2) (obj : JVal)
    (hk : a.keep_empty_text = false)
    (hne : ((supList obj).map normSup).isEmpty = false)
    (hall : ((supList obj).map normSup).all isEmptyTextSup = true) :
    entryStep a obj = (EntryOutcome.droppedEmptyText, 1, 0) := by
  unfold entryStep
  simp [hk, hne, hall]

theorem C2_amended_witness :
    ((((supList (JVal.obj [(kDuration, JVal.num 1),
        (kSupervisions, JVal.arr [JVal.obj [(kText, JVal.str [' '])]])])).map
          normSup).isEmpty = false) ∧
     (((supList (JVal.obj [(kDuration, JVal.num 1),
        (kSupervisions, JVal.arr [JVal.obj [(kText, JVal.str [' '])]])])).map
          normSup).all isEmptyTextSup = true)) ∧
    entryStep ⟨false, 3, 24000, JVal.arr [JVal.num 0]⟩
      (JVal.obj [(kDuration, JVal.num 1),
        (kSupervisions, JVal.arr [JVal.obj [(kText, JVal.str [' '])]])])
      = (EntryOutcome.droppedEmptyText, 1, 0) :=
  ⟨⟨by decide, by decide⟩,
    C2_amended ⟨false, 3, 24000, JVal.arr [JVal.num 0]⟩
      (JVal.obj [(kDuration, JVal.num 1),
        (kSupervisions, JVal.arr [JVal.obj [(kText, JVal.str [' '])]])])
      rfl (by decide) (by decide)⟩

/-! ### File-state model for the rewrite flows -/

/-- The three paths a rewrite run touches: the destination (the manifest
path), the timestamped backup, and the temporary file. `none` means the path
does not exist; `some lines` is its content. -/
structure FS where
  dest : Option (List (List Char))
  backup : Option (List (List Char))
  tmp : Option (List (List Char))
deriving DecidableEq, Repr

/-- The file operations the two rewrite flows perform. -/
inductive FOp where
  | copyDestToBackup
  | moveDestToBackup
  | createTmp
  | writeTmp (l : List Char)
  | openDestWrite
  | writeDest (l : List Char)
  | removeTmp
  | replaceDestWithTmp
deriving DecidableEq

/-- Effect of one operation: `copyDestToBackup` is `shutil.copy2` (in-place
filter_manifest.py flow), `moveDestToBackup` is `shutil.move`
(check_manifest2.py --fix), `createTmp` is `tempfile.mkstemp`,
`openDestWrite` truncates/creates the destination (`open_writer`),
the write ops append one line, `removeTmp` is `os.remove(tmp_path)` and
`replaceDestWithTmp` is `os.replace(tmp_path, output_path)`. -/
def applyOp (fs : FS) : FOp → FS
  | .copyDestToBackup => ⟨fs.dest, fs.dest, fs.tmp⟩
  | .moveDestToBackup => ⟨none, fs.dest, fs.tmp⟩
  | .createTmp => ⟨fs.dest, fs.backup, some []⟩
  | .writeTmp l => ⟨fs.dest, fs.backup, fs.tmp.map (· ++ [l])⟩
  | .openDestWrite => ⟨some [], fs.backup, fs.tmp⟩
  | .writeDest l => ⟨fs.dest.map (· ++ [l]), fs.backup, fs.tmp⟩
  | .removeTmp => ⟨fs.dest, fs.backup, none⟩
  | .replaceDestWithTmp => ⟨fs.tmp, fs.backup, none⟩

def runOps (fs : FS) (ops : List FOp) : FS := ops.foldl applyOp fs

/-- Exit of a run: `procError` is filter_manifest.py's `sys.exit(2)`,
`emptyAbort` its `sys.exit(3)`; `crashed` is an exception that propagates
out of check_manifest2.py's main loop. -/
inductive ExitCode where
  | ok
  | procError
  | emptyAbort
  | crashed
deriving DecidableEq, Repr

/-- The operation trace of filter_manifest.py's in-place flow (lines
109-168): back up, write kept lines to a fresh temporary file, and either
remove it on an exception (`failAfter = some k`: the exception hits after
`k` lines, exit 2), remove it when nothing was kept without `--keep-empty`
(exit 3), or atomically replace the destination (exit 0). -/
def filterOps (keptLines : List (List Char)) (failAfter : Option Nat)
    (keepEmpty : Bool) : List FOp × ExitCode :=
  match failAfter with
  | some k =>
    ([FOp.copyDestToBackup, FOp.createTmp] ++
      ((keptLines.take k).map FOp.writeTmp ++ [FOp.removeTmp]), .procError)
  | none =>
    if keptLines.isEmpty && !keepEmpty then
      ([FOp.copyDestToBackup, FOp.createTmp] ++ [FOp.removeTmp], .emptyAbort)
    else
      ([FOp.copyDestToBackup, FOp.createTmp] ++
        (keptLines.map FOp.writeTmp ++ [FOp.replaceDestWithTmp]), .ok)

def runFilter (start keptLines : List (List Char)) (failAfter : Option Nat)
    (keepEmpty : Bool) : FS × ExitCode :=
  (runOps ⟨some start, none, none⟩ (filterOps keptLines failAfter keepEmpty).1,
   (filterOps keptLines failAfter keepEmpty).2)

/-- The operation trace of check_manifest2.py's --fix flow (lines 200-292):
move the manifest to the backup, reopen the manifest path for writing, and
write each kept line directly to it; an exception after `k` lines leaves the
partially written destination behind (the `finally` only closes the
handle). -/
def check2Ops (keptLines : List (List Char)) (failAfter : Option Nat) :
    List FOp × ExitCode :=
  match failAfter with
  | some k =>
    ([FOp.moveDestToBackup, FOp.openDestWrite] ++ (keptLines.take k).map FOp.writeDest,
     .crashed)
  | none =>
    ([FOp.moveDestToBackup, FOp.openDestWrite] ++ keptLines.map FOp.writeDest, .ok)

def runCheck2 (start keptLines : List (List Char)) (failAfter : Option Nat) :
    FS × ExitCode :=
  (runOps ⟨some start, none, none⟩ (check2Ops keptLines failAfter).1,
   (check2Ops keptLines failAfter).2)

theorem runOps_append (fs : FS) (a b : List FOp) :
    runOps fs (a ++ b) = runOps (runOps fs a) b := by
  simp [runOps, List.foldl_append]

theorem runOps_writeTmp : ∀ (ls : List (List Char)) (fs : FS),
    runOps fs (ls.map FOp.writeTmp) = ⟨fs.dest, fs.backup, fs.tmp.map (· ++ ls)⟩
  | [], fs => by
    cases fs with
    | mk d b t => cases t <;> simp [runOps]
  | l :: ls, fs => by
    have IH := runOps_writeTmp ls ⟨fs.dest, fs.backup, fs.tmp.map (· ++ [l])⟩
    simp only [List.map_cons, runOps, List.foldl_cons] at IH ⊢
    rw [show applyOp fs (FOp.writeTmp l) = ⟨fs.dest, fs.backup, fs.tmp.map (· ++ [l])⟩ from rfl]
    rw [IH]
    cases fs.tmp with
    | none => rfl
    | some t => simp

theorem runOps_writeDest : ∀ (ls : List (List Char)) (fs : FS),
    runOps fs (ls.map FOp.writeDest) = ⟨fs.dest.map (· ++ ls), fs.backup, fs.tmp⟩
  | [], fs => by
    cases fs with
    | mk d b t => cases d <;> simp [runOps]
  | l :: ls, fs => by
    have IH := runOps_writeDest ls ⟨fs.dest.map (· ++ [l]), fs.backup, fs.tmp⟩
    simp only [List.map_cons, runOps, List.foldl_cons] at IH ⊢
    rw [show applyOp fs (FOp.writeDest l) = ⟨fs.dest.map (· ++ [l]), fs.backup, fs.tmp⟩ from rfl]
    rw [IH]
    cases fs.dest with
    | none => rfl
    | some t => simp

/-- C1: counterexample. In check_manifest2.py's --fix flow the destination
is written directly (no temporary file): a crash after one of two kept lines
leaves the destination holding exactly the first line — a half-written
destination that matches neither the original content nor the backup. -/
theorem C1_counterexample :
    (runCheck2 [['a'], ['b']] [['a'], ['b']] (some 1)).1.dest = some [['a']] ∧
    (runCheck2 [['a'], ['b']] [['a'], ['b']] (some 1)).1.backup = some [['a'], ['b']] ∧
    (runCheck2 [['a'], ['b']] [['a'], ['b']] (some 1)).1.dest ≠
      (runCheck2 [['a'], ['b']] [['a'], ['b']] (some 1)).1.backup ∧
    (runCheck2 [['a'], ['b']] [['a'], ['b']] (some 1)).2 = ExitCode.crashed := by
  decide

/-- C1 (amended): filter_manifest.py's in-place flow does satisfy the
claim — an exception while writing removes the temporary file and leaves the
destination with its START content (exit 2) — but check_manifest2.py's --fix
flow only preserves the BACKUP: the destination itself is left holding the
first `k` kept lines written before the crash. -/
theorem C1_amended (start keptLines : List (List Char)) (k : Nat) (keepEmpty : Bool) :
    (runFilter start keptLines (some k) keepEmpty).1 = ⟨some start, some start, none⟩ ∧
    (runFilter start keptLines (some k) keepEmpty).2 = ExitCode.procError ∧
    (runCheck2 start keptLines (some k)).1.backup = some start ∧
    (runCheck2 start keptLines (some k)).1.dest = some (keptLines.take k) ∧
    (runCheck2 start keptLines (some k)).2 = ExitCode.crashed := by
  have hF : (runFilter start keptLines (some k) keepEmpty).1
      = ⟨some start, some start, none⟩ := by
    show runOps ⟨some start, none, none⟩
      ([FOp.copyDestToBackup, FOp.createTmp] ++
        ((keptLines.take k).map FOp.writeTmp ++ [FOp.removeTmp])) = _
    rw [runOps_append, runOps_append]
    rw [show runOps ⟨some start, none, none⟩ [FOp.copyDestToBackup, FOp.createTmp]
        = ⟨some start, some start, some []⟩ from rfl]
    rw [runOps_writeTmp]
    rfl
  have hC : (runCheck2 start keptLines (some k)).1
      = ⟨some (keptLines.take k), some start, none⟩ := by
    show runOps ⟨some start, none, none⟩
      ([FOp.moveDestToBackup, FOp.openDestWrite] ++ (keptLines.take k).map FOp.writeDest) = _
    rw [runOps_append]
    rw [show runOps ⟨some start, none, none⟩ [FOp.moveDestToBackup, FOp.openDestWrite]
        = ⟨some [], some start, none⟩ from rfl]
    rw [runOps_writeDest]
    simp
  exact ⟨hF, rfl, by rw [hC], by rw [hC], rfl⟩

/-- C8: with zero kept records and without `--keep-empty`,
filter_manifest.py removes the temporary file, leaves the destination
untouched (the backup remains) and exits with the dedicated status 3
(`emptyAbort`), distinct from a successful run and from a processing
failure; with `--keep-empty` the same situation instead writes a
legitimately empty destination and exits 0. -/
theorem C8_ok (start : List (List Char)) :
    (runFilter start [] none false).1 = ⟨some start, some start, none⟩ ∧
    (runFilter start [] none false).2 = ExitCode.emptyAbort ∧
    (runFilter start [] none true).1.dest = some [] ∧
    (runFilter start [] none true).2 = ExitCode.ok ∧
    ExitCode.emptyAbort ≠ ExitCode.ok ∧
    ExitCode.emptyAbort ≠ ExitCode.procError := by
  exact ⟨rfl, rfl, rfl, rfl, by decide, by decide⟩

/-! ### patch_tsv_paths.py: path rewriting -/

/-- Python `s.split("/")`. -/
def splitSlash : List Char → List (List Char)
  | [] => [[]]
  | c :: rest =>
    match splitSlash rest with
    | [] => [[]]
    | seg :: segs => if c = '/' then [] :: seg :: segs else (c :: seg) :: segs

/-- Python `"/".join(...)`. -/
def joinSlash : List (List Char) → List Char
  | [] => []
  | [s] => s
  | s :: rest => s ++ '/' :: joinSlash rest

/-- normalize_path (patch_tsv_paths.py lines 14-23): collapse duplicate
slashes, preserving a leading `/` or `//`. -/
def normalize_path (p : List Char) : List Char :=
  match p with
  | '/' :: '/' :: rest => '/' :: '/' :: joinSlash ((splitSlash rest).filter (fun s => !s.isEmpty))
  | '/' :: rest => '/' :: joinSlash ((splitSlash rest).filter (fun s => !s.isEmpty))
  | rest => joinSlash ((splitSlash rest).filter (fun s => !s.isEmpty))

/-- Python `s.rstrip("/")`. -/
def rstripSlash (s : List Char) : List Char := s.rdropWhile (· = '/')

/-- Python `s.replace(pat, rep)`, non-overlapping left-to-right; the fuel is
the string length (each step consumes at least one character for the
nonempty patterns used here). -/
def replaceAllF (pat rep : List Char) : Nat → List Char → List Char
  | 0, s => s
  | fuel + 1, s =>
    match s with
    | [] => []
    | c :: rest =>
      if pat.isPrefixOf (c :: rest) then
        rep ++ replaceAllF pat rep fuel (List.drop pat.length (c :: rest))
      else c :: replaceAllF pat rep fuel rest

def replaceAll (pat rep s : List Char) : List Char := replaceAllF pat rep s.length s

def mediaPat : List Char := "/media/".toList

def mediaRep : List Char := "/media_wav_24k/".toList

/-- Number of leading slashes. -/
def leadSlashes : List Char → Nat
  | '/' :: rest => leadSlashes rest + 1
  | _ => 0

/-- `PurePosixPath(s).root`: `//` for exactly two leading slashes, `/` for
one or three-plus, empty otherwise. -/
def pppRoot (s : List Char) : List Char :=
  if leadSlashes s = 0 then [] else if leadSlashes s = 2 then ['/', '/'] else ['/']

/-- `PurePosixPath(s)`'s non-root components: empty and `.` segments are
dropped (`..` is kept). -/
def pppSegs (s : List Char) : List (List Char) :=
  (splitSlash s).filter (fun seg => !seg.isEmpty && seg != ['.'])

/-- `str(...)` of a root and component list. -/
def pppStr (root : List Char) (parts : List (List Char)) : List Char :=
  if root.isEmpty && parts.isEmpty then ['.'] else root ++ joinSlash parts

/-- Index of the last `.` in a name. -/
def lastDotIdx : List Char → Option Nat
  | [] => none
  | c :: rest =>
    match lastDotIdx rest with
    | some i => some (i + 1)
    | none => if c = '.' then some 0 else none

/-- `PurePosixPath(...).stem`: the name minus its suffix; there is a suffix
only when the last dot is neither the first nor the last character. -/
def stemOf (name : List Char) : List Char :=
  match lastDotIdx name with
  | some i => if 0 < i ∧ i < name.length - 1 then name.take i else name
  | none => name

/-- Lines 44-49 of patch_tsv_paths.py: parse with PurePosixPath, force the
`.wav` extension on the final component via `with_name(stem + ".wav")`, and
normalize once more; `none` when the path has no final component
(`with_name` raises ValueError). -/
def forceWav (s : List Char) : Option (List Char) :=
  match (pppSegs s).getLast? with
  | none => none
  | some name =>
    some (normalize_path (pppStr (pppRoot s)
      ((pppSegs s).dropLast ++ [stemOf name ++ ".wav".toList])))

/-- transform_path (patch_tsv_paths.py lines 25-49): strip, normalize,
replace the old_root prefix by new_root when it matches (else replace every
`/media/` by `/media_wav_24k/`), then force the `.wav` extension. -/
def transform_path (path old_root new_root : List Char) : Option (List Char) :=
  let original := pyStrip path
  if original = [] then some original
  else
    let old_root_norm := normalize_path (rstripSlash old_root)
    let new_root_norm := normalize_path (rstripSlash new_root)
    let p_norm := normalize_path original
    let replaced :=
      if old_root_norm ≠ [] ∧ old_root_norm.isPrefixOf p_norm = true then
        new_root_norm ++ p_norm.drop old_root_norm.length
      else
        replaceAll mediaPat mediaRep p_norm
    forceWav replaced

theorem replaceAllF_not_occurs (pat rep : List Char) :
    ∀ (fuel : Nat) (s : List Char), ¬ pat <:+: s → replaceAllF pat rep fuel s = s
  | 0, _, _ => rfl
  | _ + 1, [], _ => rfl
  | fuel + 1, c :: rest, h => by
    have hp : pat.isPrefixOf (c :: rest) = false := by
      rw [Bool.eq_false_iff]
      intro hb
      exact h (List.isPrefixOf_iff_prefix.mp hb).isInfix
    have hrest : ¬ pat <:+: rest := by
      intro hi
      obtain ⟨s1, t1, hst⟩ := hi
      exact h ⟨c :: s1, t1, by rw [← hst]; simp⟩
    unfold replaceAllF
    simp [hp, replaceAllF_not_occurs pat rep fuel rest hrest]

/-- C10: counterexample to "for a fallback path with no `/media/` substring,
the only changes are duplicate-slash normalization and the forced extension
on the final segment". The relative path `./x.flac` has no duplicate
slashes and no `/media/`, yet PurePosixPath drops its `.` segment, so the
result is `x.wav` rather than the claimed `./x.wav`. -/
theorem C10_counterexample :
    transform_path "./x.flac".toList "/srv/speechcatcher/en_au/media".toList
        "/srv/speechcatcher/en_au/media_wav_24k".toList = some "x.wav".toList ∧
    "x.wav".toList ≠ "./x.wav".toList := by
  decide

/-- C10 (amended): in the fallback case (old_root's normalized form empty or
not a prefix of the normalized path), the result indeed ignores old_root and
new_root: it is the `.wav`-forcing of the path obtained by replacing every
`/media/` with `/media_wav_24k/` in the slash-normalized input; with no
`/media/` occurrence, of the slash-normalized input itself. The extension
step, however, re-parses with PurePosixPath and so also drops `.`
segments — the claimed "only changes" clause is too weak. -/
theorem C10_amended (path old_root new_root : List Char)
    (h0 : ¬ pyStrip path = [])
    (h2 : ¬(normalize_path (rstripSlash old_root) ≠ [] ∧
      (normalize_path (rstripSlash old_root)).isPrefixOf
        (normalize_path (pyStrip path)) = true)) :
    transform_path path old_root new_root
      = forceWav (replaceAll mediaPat mediaRep (normalize_path (pyStrip path))) ∧
    (¬ mediaPat <:+: normalize_path (pyStrip path) →
      transform_path path old_root new_root
        = forceWav (normalize_path (pyStrip path))) := by
  have h1 : transform_path path old_root new_root
      = forceWav (replaceAll mediaPat mediaRep (normalize_path (pyStrip path))) := by
    simp only [transform_path]
    rw [if_neg h0, if_neg h2]
  refine ⟨h1, fun hm => ?_⟩
  rw [h1]
  unfold replaceAll
  rw [replaceAllF_not_occurs mediaPat mediaRep _ _ hm]

theorem C10_amended_witness :
    (¬ pyStrip "a/b.flac".toList = [] ∧
     ¬(normalize_path (rstripSlash "/media".toList) ≠ [] ∧
       (normalize_path (rstripSlash "/media".toList)).isPrefixOf
         (normalize_path (pyStrip "a/b.flac".toList)) = true)) ∧
    (transform_path "a/b.flac".toList "/media".toList "/media_wav_24k".toList
        = forceWav (replaceAll mediaPat mediaRep
            (normalize_path (pyStrip "a/b.flac".toList))) ∧
     (¬ mediaPat <:+: normalize_path (pyStrip "a/b.flac".toList) →
       transform_path "a/b.flac".toList "/media".toList "/media_wav_24k".toList
         = forceWav (normalize_path (pyStrip "a/b.flac".toList)))) :=
  ⟨⟨by decide, by decide⟩,
    C10_amended "a/b.flac".toList "/media".toList "/media_wav_24k".toList
      (by decide) (by decide)⟩

end ZipVoice
